import Mathlib

/-!
Verification of the POC_ALP middleware core: the OData batch-translation
protocol (`srv/src/services/datasphere.service.ts`, `batch.middleware`) and
the metadata XML sanitization pipeline (`srv/src/utils/xml-parser.ts`).

Strings are modelled as `List Char` (`Str`), so that every operation is a
structural computation the kernel can evaluate.  JavaScript string methods
(`split`, `trim`, `replace`, template literals) are embedded as explicit
recursive functions with the same semantics on the ASCII inputs the service
handles.
-/

namespace PocAlp

/-- Character lists standing for JavaScript strings. -/
abbrev Str := List Char

/-- Whitespace characters recognised by `String.prototype.trim` (ASCII part). -/
def isWSChar (c : Char) : Bool := c = ' ' || c = '\t' || c = '\n' || c = '\r'

/-- JavaScript `s.trimStart()`. -/
def trimLeftL (s : Str) : Str := s.dropWhile isWSChar

/-- JavaScript `s.trimEnd()`. -/
def trimRightL (s : Str) : Str := (s.reverse.dropWhile isWSChar).reverse

/-- JavaScript `s.trim()`. -/
def trimL (s : Str) : Str := trimRightL (trimLeftL s)

/-- Concatenate a list of strings. -/
def joinL : List Str → Str
  | [] => []
  | s :: ss => s ++ joinL ss

/-- Join with a separator, as JavaScript `Array.prototype.join`. -/
def intercalateL (sep : Str) : List Str → Str
  | [] => []
  | [s] => s
  | s :: ss => s ++ sep ++ intercalateL sep ss

/-- Fuel-driven worker for `splitOnL`; the fuel is always at least
`s.length + 1`, so the first branch is never reached on the wrapper's calls. -/
def splitOnAuxL (sep : Str) : Nat → Str → Str → List Str
  | 0, s, acc => [acc.reverse ++ s]
  | _ + 1, [], acc => [acc.reverse]
  | fuel + 1, c :: rest, acc =>
    if sep.isPrefixOf (c :: rest) then
      acc.reverse :: splitOnAuxL sep fuel ((c :: rest).drop sep.length) []
    else
      splitOnAuxL sep fuel rest (c :: acc)

/-- JavaScript `s.split(sep)` for a nonempty literal separator: splits on each
non-overlapping occurrence, scanning left to right. -/
def splitOnL (sep s : Str) : List Str := splitOnAuxL sep (s.length + 1) s []

/-- Fuel-driven worker for `splitLinesL`. -/
def splitLinesAux : Nat → Str → Str → List Str
  | 0, s, acc => [acc.reverse ++ s]
  | _ + 1, [], acc => [acc.reverse]
  | fuel + 1, c :: rest, acc =>
    if c = '\n' then acc.reverse :: splitLinesAux fuel rest []
    else if c = '\r' ∧ rest.head? = some '\n' then
      acc.reverse :: splitLinesAux fuel rest.tail []
    else splitLinesAux fuel rest (c :: acc)

/-- JavaScript `s.split(/\r?\n/)`: line separators are `\n`, optionally
preceded by a consumed `\r`. -/
def splitLinesL (s : Str) : List Str := splitLinesAux (s.length + 1) s []

/-- Fuel-driven worker for `replaceFirstL`. -/
def replaceFirstAuxL (pat repl : Str) : Nat → Str → Str
  | 0, s => s
  | _ + 1, [] => []
  | fuel + 1, c :: rest =>
    if pat.isPrefixOf (c :: rest) then repl ++ (c :: rest).drop pat.length
    else c :: replaceFirstAuxL pat repl fuel rest

/-- JavaScript `s.replace(pat, repl)` with a nonempty string pattern:
replaces only the first occurrence. -/
def replaceFirstL (pat repl s : Str) : Str := replaceFirstAuxL pat repl (s.length + 1) s

/-- Whether `sub` occurs as a contiguous substring of `s`. -/
def containsSubL (sub s : Str) : Bool :=
  (List.range (s.length + 1)).any (fun k => sub.isPrefixOf (s.drop k))

/-- Decimal rendering of a natural number (JavaScript number-to-string for
the integers produced by `Date.now()`). -/
def natToStr (n : Nat) : Str := (Nat.repr n).data

/-! ## Pagination handling (`processBatchRequest`, datasphere.service.ts 137-150)

`Number(req.query.$skip) || 0` in JavaScript: `Number` of an absent
parameter (`undefined`) is `NaN`; `NaN` and `0` are falsy, so `|| 0` maps
both to `0`.  A `Option Int` with `none` standing for `NaN` models the
intermediate value. -/

/-- Numeric value of a digit string. -/
def digitsVal (ds : Str) : Int :=
  ds.foldl (fun acc c => acc * 10 + (c.toNat - '0'.toNat)) 0

/-- JavaScript `Number(s)` restricted to the integer-literal strings the
query layer passes through (optional sign, decimal digits; a blank string
is `0`); `none` stands for `NaN`. -/
def jsNumberOfString (s : Str) : Option Int :=
  let t := trimL s
  if t = [] then some 0
  else
    match t with
    | '-' :: ds => if ds ≠ [] && ds.all Char.isDigit then some (-(digitsVal ds)) else none
    | '+' :: ds => if ds ≠ [] && ds.all Char.isDigit then some (digitsVal ds) else none
    | ds => if ds.all Char.isDigit then some (digitsVal ds) else none

/-- JavaScript `Number(q)` for a query parameter (`none` = parameter absent,
giving `Number(undefined) = NaN`). -/
def jsNumberQuery (q : Option Str) : Option Int :=
  match q with
  | none => none
  | some s => jsNumberOfString s

/-- JavaScript `x || 0`: `NaN` and `0` are falsy. -/
def orZeroJS (v : Option Int) : Option Int :=
  match v with
  | none => some 0
  | some 0 => some 0
  | some n => some n

/-- JavaScript `isNaN` on the modelled number. -/
def jsIsNaN (v : Option Int) : Bool := v.isNone

/-- Pagination step of `processBatchRequest` (datasphere.service.ts 137-150):
`skip`/`top` are `Number(param) || 0`, the `isNaN` guard raises
`DatasphereBatchError`, and the injected count is `skip + top * 2`. -/
def paginationStep (skipQ topQ : Option Str) : Except Str Int :=
  let skip := orZeroJS (jsNumberQuery skipQ)
  let top := orZeroJS (jsNumberQuery topQ)
  if jsIsNaN skip || jsIsNaN top then
    .error "Invalid pagination parameters".data
  else
    .ok ((skip.getD 0) + (top.getD 0) * 2)

/-! ## Batch response envelope (`transformBatchResponse`, datasphere.service.ts 195-203) -/

/-- Result of the batch translation, mirroring `BatchResponse` in
`types/datasphere.types.ts`. -/
structure BatchResponse where
  id : Str
  body : Str
deriving DecidableEq

/-- The service's `transformBatchResponse` (datasphere.service.ts 195-203).
`Date.now()` is passed in as `now`; the body is the template literal
interpolating `batchId` and `responseData`. -/
def transformBatchResponseSvc (now : Nat) (responseData : Str) : BatchResponse :=
  let batchId := "batch_".data ++ natToStr now
  { id := batchId
    body := "--".data ++ batchId ++
      "\r\nContent-Type: application/http\r\n\r\nHTTP/1.1 200 OK\r\nContent-Type: application/json\r\n\r\n".data ++
      responseData ++ "\r\n--".data ++ batchId ++ "--".data }

/-- Modelled from the spec: the response body as the claim lists it —
parts line, `Content-Type: application/http`, blank line, status line,
`Content-Type: application/json`, blank line, the forwarded JSON, and the
terminal marker, all with CRLF terminators. -/
def claimEnvelopeBody (now : Nat) (forwardedJson : Str) : Str :=
  let batchId := "batch_".data ++ natToStr now
  "--".data ++ batchId ++ "\r\n".data ++
  "Content-Type: application/http".data ++ "\r\n".data ++ "\r\n".data ++
  "HTTP/1.1 200 OK".data ++ "\r\n".data ++
  "Content-Type: application/json".data ++ "\r\n".data ++ "\r\n".data ++
  forwardedJson ++ "\r\n".data ++
  "--".data ++ batchId ++ "--".data

/-! ## Error classes and the error middleware (C9) -/

/-- The `BaseError` data carried by every domain error
(`errors/base.error.ts`): message, HTTP status mapping, stable code. -/
structure BaseErrorModel where
  message : Str
  statusCode : Nat
  errorCode : Str
deriving DecidableEq

/-- `ValidationError` (errors/http.errors.ts 20-24): passes `400` to
`BaseError` as the HTTP-status mapping. -/
def mkValidationError (message : Str) (errorCode : Str) : BaseErrorModel :=
  { message := message, statusCode := 400, errorCode := errorCode }

/-- HTTP status sent by `errorHandler` (middleware/error.middleware.ts 9-42):
the handler builds a response with code `"500"` and calls
`res.status(500)` unconditionally, for every error it receives. -/
def errorHandlerStatus (_err : BaseErrorModel) : Nat := 500

/-! ## Batch envelope parser (`parseBatchBody`, batch.middleware 243-268) -/

/-- One parsed batch part (`BatchPart` in types/datasphere.types.ts):
a header mapping and the raw body text.  The JavaScript header object is
modelled as an insertion-ordered association list. -/
structure BatchPart where
  headers : List (Str × Str)
  body : Str
deriving DecidableEq

/-- Insertion into the JavaScript header object: an existing key is
overwritten in place, a new key is appended. -/
def upsertHeader (m : List (Str × Str)) (k v : Str) : List (Str × Str) :=
  if m.any (fun p => p.1 = k) then
    m.map (fun p => if p.1 = k then (k, v) else p)
  else
    m ++ [(k, v)]

/-- JavaScript `line.split(/:(.+)/)` destructured as `[key, value]` with the
`if (key && value)` guard: the line is split at the first colon that has at
least one character after it; both pieces must be nonempty (pre-trim) for a
header to be recorded, and key and value are then trimmed. -/
def parseHeaderLineJS (line : Str) : Option (Str × Str) :=
  match splitOnL [':'] line with
  | [] => none
  | [_] => none
  | k :: rest =>
    let v := intercalateL [':'] rest
    if k ≠ [] && v ≠ [] then some (trimL k, trimL v) else none

/-- The `bodyLines.forEach` loop of `parseBatchBody` (batch.middleware
255-264): a blank line moves `bodyIndex` past itself; any other line that
splits as `key: value` is recorded as a header. -/
def scanHeaderLines : List Str → Nat → List (Str × Str) → Nat → List (Str × Str) × Nat
  | [], _, hdrs, bodyIndex => (hdrs, bodyIndex)
  | l :: ls, i, hdrs, bodyIndex =>
    if trimL l = [] then
      scanHeaderLines ls (i + 1) hdrs (i + 1)
    else
      match parseHeaderLineJS l with
      | some kv => scanHeaderLines ls (i + 1) (upsertHeader hdrs kv.1 kv.2) bodyIndex
      | none => scanHeaderLines ls (i + 1) hdrs bodyIndex

/-- Line-level part construction (batch.middleware 251-267):
`const [headers, ...bodyLines] = lines` discards the first line; headers
are scanned from `bodyLines`; the body is the lines from the final
`bodyIndex` joined with `\n` and trimmed. -/
def parsePartLines : List Str → BatchPart
  | [] => { headers := [], body := [] }
  | _first :: bodyLines =>
    { headers := (scanHeaderLines bodyLines 0 [] 0).1,
      body := trimL (intercalateL ['\n'] (bodyLines.drop (scanHeaderLines bodyLines 0 [] 0).2)) }

/-- The per-part mapper of `parseBatchBody` (batch.middleware 250-267):
the segment is trimmed, split into lines, and handed to the line-level
construction. -/
def parseBatchPartSeg (part : Str) : BatchPart :=
  parsePartLines (splitLinesL (trimL part))

/-- `parseBatchBody` (batch.middleware 243-268): split the raw body on
`--boundary`, keep segments that are nonempty after trimming and differ
from the terminal marker `--boundary--`, and map each to a part. -/
def parseBatchBody (body boundary : Str) : List BatchPart :=
  let boundaryDelimiter := "--".data ++ boundary
  let boundaryEnd := boundaryDelimiter ++ "--".data
  let parts := (splitOnL boundaryDelimiter body).filter
    (fun part => !(trimL part).isEmpty && part ≠ boundaryEnd)
  parts.map parseBatchPartSeg

/-! ## Render side of the round-trip claim (C3)

Modelled from the spec: parts are rendered into a multipart body with
separator `--b`, a per-part header block terminated by a blank line, the
part body, and the terminal marker `--b--`, with CRLF line terminators. -/

/-- A part to be rendered: header pairs and body lines. -/
structure RenderPart where
  headers : List (Str × Str)
  bodyLines : List Str
deriving DecidableEq

/-- Render one header pair as a `key: value` line. -/
def renderHeaderLine (kv : Str × Str) : Str := kv.1 ++ ": ".data ++ kv.2

/-- The rendered content of one part after its `--b` separator: CRLF, the
header lines, a blank line, the body lines, CRLF. -/
def renderPartInner (p : RenderPart) : Str :=
  "\r\n".data ++ joinL (p.headers.map (fun kv => renderHeaderLine kv ++ "\r\n".data)) ++
  "\r\n".data ++ intercalateL "\r\n".data p.bodyLines ++ "\r\n".data

/-- Modelled from the spec: the full multipart rendering of a sequence of
parts under boundary token `b`, ending with the terminal marker. -/
def renderClaim (ps : List RenderPart) (b : Str) : Str :=
  joinL (ps.map (fun p => "--".data ++ b ++ renderPartInner p)) ++
  "--".data ++ b ++ "--".data

/-! ## Batch path extraction (`extractBatchPath`, datasphere.service.ts 181-190)

The extraction pipes the concatenated path through
`new URLSearchParams(s).toString()` and `decodeURIComponent`.  Both built-ins
are modelled for the ASCII strings this service routes: WHATWG
`application/x-www-form-urlencoded` parsing and serialization, and percent
decoding. -/

/-- Value of a hexadecimal digit. -/
def hexDigitVal (c : Char) : Option Nat :=
  let n := c.toNat
  if 48 ≤ n && n ≤ 57 then some (n - 48)
  else if 97 ≤ n && n ≤ 102 then some (n - 87)
  else if 65 ≤ n && n ≤ 70 then some (n - 55)
  else none

/-- Uppercase hexadecimal digit of a value below 16. -/
def hexDigitUpper (n : Nat) : Char :=
  if n < 10 then Char.ofNat ('0'.toNat + n) else Char.ofNat ('A'.toNat + n - 10)

/-- Percent-decoding of `%hh` escapes (the ASCII case of
`decodeURIComponent`); malformed escapes are left untouched. -/
def percentDecode : Str → Str
  | [] => []
  | '%' :: h1 :: h2 :: rest =>
    match hexDigitVal h1, hexDigitVal h2 with
    | some a, some b => Char.ofNat (a * 16 + b) :: percentDecode rest
    | _, _ => '%' :: percentDecode (h1 :: h2 :: rest)
  | c :: rest => c :: percentDecode rest

/-- Decode of one urlencoded token when parsing: `+` becomes space, then
percent escapes are decoded. -/
def formDecode (s : Str) : Str :=
  percentDecode (s.map (fun c => if c = '+' then ' ' else c))

/-- Characters the urlencoded serializer leaves unescaped. -/
def formSafeChar (c : Char) : Bool :=
  c.isAlphanum || c = '*' || c = '-' || c = '.' || c = '_'

/-- Urlencoded serialization of one token: safe characters kept, space to
`+`, anything else percent-escaped (ASCII). -/
def formEncode (s : Str) : Str :=
  joinL (s.map (fun c =>
    if formSafeChar c then [c]
    else if c = ' ' then ['+']
    else ['%', hexDigitUpper (c.toNat / 16 % 16), hexDigitUpper (c.toNat % 16)]))

/-- WHATWG urlencoded parsing of one `name=value` chunk (split at the first
`=`; a chunk without `=` is a name with empty value). -/
def parsePairQS (p : Str) : Str × Str :=
  let k := p.takeWhile (fun c => c ≠ '=')
  match p.dropWhile (fun c => c ≠ '=') with
  | [] => (formDecode k, [])
  | _ :: v => (formDecode k, formDecode v)

/-- `new URLSearchParams(s)`: a leading `?` is stripped, the rest splits on
`&` with empty chunks skipped. -/
def parseQS (s : Str) : List (Str × Str) :=
  let s1 := match s with | '?' :: rest => rest | _ => s
  ((splitOnL ['&'] s1).filter (fun c => c ≠ [])).map parsePairQS

/-- `URLSearchParams.prototype.toString`. -/
def serializeQS (pairs : List (Str × Str)) : Str :=
  intercalateL ['&'] (pairs.map (fun kv => formEncode kv.1 ++ ['='] ++ formEncode kv.2))

/-- `decodeURIComponent(new URLSearchParams(s).toString())`. -/
def urlSearchParamsRoundTrip (s : Str) : Str :=
  percentDecode (serializeQS (parseQS s))

/-- `extractBatchPath` (datasphere.service.ts 181-190): slice the first batch
part's body between `GET` and `HTTP`, trim, strip `datasphere/` and `$batch`
from the caller's request path, and route the concatenation through
`URLSearchParams` and `decodeURIComponent`, dropping the leading slash.
Any structural failure (no `GET` in the body) is caught and surfaced as a
`ValidationError`. -/
def extractBatchPath (batchBody reqPath : Str) : Except Str Str :=
  match (splitOnL "GET".data batchBody).get? 1 with
  | none => .error "Failed to extract batch path from request".data
  | some afterGet =>
    let path := trimL (match splitOnL "HTTP".data afterGet with
      | [] => []
      | s :: _ => s)
    let rootPath := replaceFirstL "$batch".data [] (replaceFirstL "datasphere/".data [] reqPath)
    .ok ((urlSearchParamsRoundTrip (rootPath ++ path)).drop 1)

/-! ## XML document model (`utils/xml-parser.ts`)

`xml2js` parses XML into attribute maps (under `$`) and child-element
arrays keyed by element name.  The tree is modelled directly as elements
with an ordered attribute list and an ordered child list; text nodes,
comments and CDATA do not occur in the metadata fragments the cleaning
claims range over.  `xml2js` groups same-named children into one array, so
the model is faithful for documents whose same-named children are adjacent
(which holds for all inputs and all serializer outputs considered here). -/

/-- An XML element: name, ordered attribute pairs, ordered children. -/
inductive XElem where
  | mk (name : Str) (attrs : List (Str × Str)) (children : List XElem)

/-- Element name. -/
def XElem.name : XElem → Str
  | .mk n _ _ => n

/-- Element attributes. -/
def XElem.attrs : XElem → List (Str × Str)
  | .mk _ a _ => a

/-- Element children. -/
def XElem.children : XElem → List XElem
  | .mk _ _ c => c

/-- Attribute lookup (`obj.$?.Attr`). -/
def getAttr (e : XElem) (k : Str) : Option Str :=
  (e.attrs.find? (fun p => p.1 = k)).map (fun p => p.2)

/-- The guard of `findAllAnnotations` (xml-parser.ts 65):
`obj.$?.Target && obj.Annotation` — a nonempty `Target` attribute (an empty
string is falsy) and at least one child element named `Annotation`. -/
def isAnnotGroup (e : XElem) : Bool :=
  (match getAttr e "Target".data with
   | some t => t ≠ []
   | none => false) &&
  e.children.any (fun c => c.name = "Annotation".data)

mutual

/-- `findAllAnnotations` (xml-parser.ts 59-77): recursively collect every
node with a truthy `Target` attribute and an `Annotation` child.  The
source walks `Object.values` of the `xml2js` object; on the element tree
this is the qualifying node followed by the results from its children. -/
def findAllAnnots : XElem → List XElem
  | .mk n a cs =>
    (if isAnnotGroup (.mk n a cs) then [XElem.mk n a cs] else []) ++ findAllAnnotsList cs

/-- `findAllAnnotations` mapped over a child list. -/
def findAllAnnotsList : List XElem → List XElem
  | [] => []
  | c :: cs => findAllAnnots c ++ findAllAnnotsList cs

end

/-- Whether some child `Annotation` element carries `Term="Common.Label"`
(xml-parser.ts 110-112; single-child and array representations are both
normalized to a sequence by the source, which the child list models). -/
def hasCommonLabel (e : XElem) : Bool :=
  (e.children.filter (fun c => c.name = "Annotation".data)).any
    (fun ann => getAttr ann "Term".data = some "Common.Label".data)

/-- Tree part of `filterTargetsWithoutLabel` (xml-parser.ts 92-121): for
each found group, skip it unless its `Target` is truthy and contains
`/_0`; emit the target when no child annotation is a `Common.Label`. -/
def targetsWithoutLabelTree (root : XElem) : List Str :=
  (findAllAnnots root).filterMap (fun g =>
    match getAttr g "Target".data with
    | none => none
    | some t =>
      if t = [] then none
      else if containsSubL "/_0".data t then
        (if hasCommonLabel g then none else some t)
      else none)

/-- `extractLastSegments` for one path (xml-parser.ts 32-36): the substring
after the last `/`, or the whole string when no `/` occurs. -/
def lastSegment (p : Str) : Str :=
  (p.reverse.takeWhile (fun c => c ≠ '/')).reverse

/-- `extractLastSegments` (xml-parser.ts 32-36). -/
def extractLastSegments (paths : List Str) : List Str := paths.map lastSegment

/-- The removal test of `removeObsolete` (xml-parser.ts 196):
`obj.$?.Term === "Common.Label" && obj.$.String?.startsWith("(obsolete)")`. -/
def isObsoleteLabel (e : XElem) : Bool :=
  getAttr e "Term".data = some "Common.Label".data &&
  (match getAttr e "String".data with
   | some s => "(obsolete)".data.isPrefixOf s
   | none => false)

mutual

/-- `removeObsolete` (xml-parser.ts 189-206): a matching node becomes
`null` (here `none`); arrays filter removed members out; other nodes keep
their structure with recursively cleaned children. -/
def removeObsolete : XElem → Option XElem
  | .mk n a cs =>
    if isObsoleteLabel (.mk n a cs) then none
    else some (.mk n a (removeObsoleteList cs))

/-- `removeObsolete` over a child array (`results.filter(Boolean)`). -/
def removeObsoleteList : List XElem → List XElem
  | [] => []
  | c :: cs =>
    match removeObsolete c with
    | none => removeObsoleteList cs
    | some c2 => c2 :: removeObsoleteList cs

end

/-- The removal test of `removeUnderscores` (xml-parser.ts 235):
`obj.$?.Name?.startsWith("_")`. -/
def hasUnderscoreName (e : XElem) : Bool :=
  match getAttr e "Name".data with
  | some s => "_".data.isPrefixOf s
  | none => false

mutual

/-- `removeUnderscores` (xml-parser.ts 228-245): removes every node whose
`Name` attribute starts with `_`, with the same null-propagation contract
as `removeObsolete`.  (Defined in the source but never invoked by
`cleanXML`.) -/
def removeUnderscores : XElem → Option XElem
  | .mk n a cs =>
    if hasUnderscoreName (.mk n a cs) then none
    else some (.mk n a (removeUnderscoresList cs))

/-- `removeUnderscores` over a child array. -/
def removeUnderscoresList : List XElem → List XElem
  | [] => []
  | c :: cs =>
    match removeUnderscores c with
    | none => removeUnderscoresList cs
    | some c2 => c2 :: removeUnderscoresList cs

end

/-! ## Text passes of the cleaning pipeline -/

/-- Index of the last match of `Path="0` inside the `[^>]*` region of the
zero-path regex (the greedy `[^>]*` picks the rightmost viable start). -/
def lastPathZeroIdx (region : Str) : Option Nat :=
  ((List.range (region.length + 1)).filter
    (fun j => "Path=\"0".data.isPrefixOf (region.drop j))).getLast?

/-- Match of `/(<Annotation[^>]*Path=")0/` at the head of `s`: on success,
the replacement text (`$1_0`) and the remainder after the matched `0`. -/
def zeroPathMatchAt (s : Str) : Option (Str × Str) :=
  if "<Annotation".data.isPrefixOf s then
    let afterTag := s.drop 11
    let region := afterTag.takeWhile (fun c => c ≠ '>')
    match lastPathZeroIdx region with
    | none => none
    | some j =>
      some ("<Annotation".data ++ region.take j ++ "Path=\"_0".data, afterTag.drop (j + 7))
  else none

/-- Fuel-driven worker for `replaceZeroInPath` (the global regex scans left
to right and resumes after each match). -/
def replaceZeroAux : Nat → Str → Str
  | 0, s => s
  | _ + 1, [] => []
  | fuel + 1, c :: rest =>
    match zeroPathMatchAt (c :: rest) with
    | some (repl, after) => repl ++ replaceZeroAux fuel after
    | none => c :: replaceZeroAux fuel rest

/-- `replaceZeroInPath` (xml-parser.ts 263):
`xml.replace(/(<Annotation[^>]*Path=")0/g, "$1_0")`. -/
def replaceZeroInPath (s : Str) : Str := replaceZeroAux (s.length + 1) s

/-- First capture of `/Name="([^"]+)"/` on a line: the regex engine takes
the leftmost `Name="` that is followed by at least one non-quote character
and a closing quote. -/
def firstNameAttr (line : Str) : Option Str :=
  (List.range (line.length + 1)).findSome? (fun k =>
    if "Name=\"".data.isPrefixOf (line.drop k) then
      let after := line.drop (k + 6)
      let v := after.takeWhile (fun c => c ≠ '"')
      if v ≠ [] && v.length < after.length then some v else none
    else none)

/-- `removePropertyNodeByName` (xml-parser.ts 326-341): drop every line
whose trimmed text starts with `<Property` and whose first `Name`
attribute is in the removal set; also drop blank first/last lines
(the filter keeps a line only when its trimmed text is nonempty or it is
an interior line). -/
def removePropertyNodeByName (xmlContent : Str) (namesToRemove : List Str) : Str :=
  let lines := splitOnL ['\n'] xmlContent
  let n := lines.length
  let kept := (lines.enum.filter (fun p =>
    let trimmedLine := trimL p.2
    if "<Property".data.isPrefixOf trimmedLine &&
        (match firstNameAttr trimmedLine with
         | some v => namesToRemove.contains v
         | none => false) then
      false
    else
      !trimmedLine.isEmpty || (decide (p.1 > 0) && decide (p.1 < n - 1)))).map (fun p => p.2)
  intercalateL ['\n'] kept

/-! ## Serialization (`xml2js` `Builder`) and parsing (`parseStringPromise`)

The builder pretty-prints with two-space indentation, one tag per line, a
standard XML declaration, self-closing empty elements, and `\n` line
separators.  The parser accepts that subset: optional declaration,
elements with double-quoted attributes, whitespace between tags. -/

/-- Indentation prefix at nesting depth `k`. -/
def indentStr (k : Nat) : Str := List.replicate (2 * k) ' '

/-- Serialized attribute list: ` name="value"` per attribute. -/
def buildAttrs (attrs : List (Str × Str)) : Str :=
  joinL (attrs.map (fun kv => ' ' :: (kv.1 ++ '=' :: '"' :: kv.2 ++ ['"'])))

mutual

/-- Lines of the pretty-printed serialization of one element at depth
`ind`. -/
def buildElemLines (ind : Nat) : XElem → List Str
  | .mk n a [] => [indentStr ind ++ '<' :: (n ++ buildAttrs a) ++ "/>".data]
  | .mk n a (c :: cs) =>
    (indentStr ind ++ '<' :: (n ++ buildAttrs a) ++ ['>']) ::
    (buildChildrenLines (ind + 1) (c :: cs) ++ [indentStr ind ++ '<' :: '/' :: n ++ ['>']])

/-- Lines of the serialization of a child list. -/
def buildChildrenLines (ind : Nat) : List XElem → List Str
  | [] => []
  | c :: cs => buildElemLines ind c ++ buildChildrenLines ind cs

end

/-- The declaration line the `xml2js` builder emits. -/
def xmlDeclLine : Str := "<?xml version=\"1.0\" encoding=\"UTF-8\" standalone=\"yes\"?>".data

/-- `Builder.buildObject`: declaration line plus the pretty-printed tree. -/
def buildXML (root : XElem) : Str :=
  intercalateL ['\n'] (xmlDeclLine :: buildElemLines 0 root)

/-- Name characters accepted by the parser. -/
def isNameChar (c : Char) : Bool := c.isAlphanum || c = '_' || c = '.' || c = ':' || c = '-'

/-- Skip whitespace between tokens. -/
def skipWS (s : Str) : Str := s.dropWhile isWSChar

/-- Parse a run of `name="value"` attributes, stopping at `/` or `>`. -/
def parseAttrs : Nat → Str → Option (List (Str × Str) × Str)
  | 0, _ => none
  | fuel + 1, s =>
    let s1 := skipWS s
    if s1.head? = some '/' || s1.head? = some '>' then some ([], s1)
    else
      let name := s1.takeWhile isNameChar
      if name = [] then none
      else
        match s1.drop name.length with
        | '=' :: '"' :: rest =>
          let v := rest.takeWhile (fun c => c ≠ '"')
          match rest.drop v.length with
          | '"' :: rest2 => (parseAttrs fuel rest2).map (fun p => ((name, v) :: p.1, p.2))
          | _ => none
        | _ => none

mutual

/-- Parse one element (self-closing or with a child list and matching
close tag), returning it with the unconsumed remainder. -/
def parseElem : Nat → Str → Option (XElem × Str)
  | 0, _ => none
  | fuel + 1, s =>
    match skipWS s with
    | '<' :: rest =>
      let name := rest.takeWhile isNameChar
      if name = [] then none
      else
        match parseAttrs fuel (rest.drop name.length) with
        | none => none
        | some (attrs, s2) =>
          if s2.head? = some '/' then
            if s2.tail.head? = some '>' then some (.mk name attrs [], s2.tail.tail)
            else none
          else if s2.head? = some '>' then
            match parseChildren fuel s2.tail with
            | none => none
            | some (cs, s4) =>
              match skipWS s4 with
              | '<' :: '/' :: s5 =>
                if name.isPrefixOf s5 then
                  match s5.drop name.length with
                  | '>' :: s6 => some (.mk name attrs cs, s6)
                  | _ => none
                else none
              | _ => none
          else none
    | _ => none

/-- Parse a maximal run of sibling elements, stopping before a close tag. -/
def parseChildren : Nat → Str → Option (List XElem × Str)
  | 0, _ => none
  | fuel + 1, s =>
    let s1 := skipWS s
    if s1.head? = some '<' then
      if s1.tail.head? = some '/' then some ([], s)
      else
        match parseElem fuel s with
        | none => none
        | some (c, s2) =>
          match parseChildren fuel s2 with
          | none => none
          | some (cs, s3) => some (c :: cs, s3)
    else some ([], s)

end

/-- Skip an optional leading `<?...?>` declaration. -/
def skipXmlDecl (s : Str) : Str :=
  let s1 := skipWS s
  if "<?".data.isPrefixOf s1 then
    match splitOnL "?>".data s1 with
    | [] => s1
    | [_] => s1
    | x :: _ => s1.drop (x.length + 2)
  else s1

/-- `parseStringPromise` on the supported subset: the document must reduce
to a single root element with only trailing whitespace. -/
def parseXML (s : Str) : Option XElem :=
  let body := skipXmlDecl s
  match parseElem (3 * body.length + 3) body with
  | some (e, rest) => if skipWS rest = [] then some e else none
  | none => none

/-! ## Well-formedness and measures for the serializer round trip -/

mutual

/-- Serializable elements: nonempty names of name characters, attribute
keys likewise, attribute values free of double quotes. -/
def wfX : XElem → Bool
  | .mk n attrs cs =>
    n ≠ [] && n.all isNameChar &&
    attrs.all (fun kv => kv.1 ≠ [] && kv.1.all isNameChar && kv.2.all (fun c => c ≠ '"')) &&
    wfXList cs

/-- Serializability of a child list. -/
def wfXList : List XElem → Bool
  | [] => true
  | c :: cs => wfX c && wfXList cs

end

mutual

/-- Fuel needed by `parseElem` on the serialization of an element. -/
def elemWeight : XElem → Nat
  | .mk _ attrs cs => 1 + (attrs.length + 1) + childrenWeight cs

/-- Fuel needed by `parseChildren` on a serialized child region. -/
def childrenWeight : List XElem → Nat
  | [] => 1
  | c :: cs => 1 + elemWeight c + childrenWeight cs

end

/-- The flat text of one serialized element. -/
def flatT (ind : Nat) (e : XElem) : Str := intercalateL ['\n'] (buildElemLines ind e)

/-- The serialized child region: each child preceded by its newline. -/
def childrenBlock (ind : Nat) : List XElem → Str
  | [] => []
  | c :: cs => ('\n' :: flatT ind c) ++ childrenBlock ind cs

/-! ## The cleaning pipeline (`cleanXML`, xml-parser.ts 285-308) -/

/-- `removePrimarykeys` (xml-parser.ts 455-462): find `/_0` targets lacking
a label, reduce them to their last path segment, and drop the matching
`<Property>` lines.  Parsing happens inside `filterTargetsWithoutLabel`;
its failure propagates. -/
def removePrimarykeys (xmlContent : Str) : Except Str Str :=
  match parseXML xmlContent with
  | none => .error "Error filtering XML".data
  | some t =>
    let targets := targetsWithoutLabelTree t
    let results := extractLastSegments targets
    .ok (removePropertyNodeByName xmlContent results)

/-- `cleanXML` (xml-parser.ts 285-308): zero-path rewrite, primary-key
property removal, parse, obsolete pruning, re-serialization.  Any parse
failure (or a pruned root, which the builder cannot serialize) surfaces as
an error; `removeUnderscores` is not part of the pipeline. -/
def cleanXML (xmlContent : Str) : Except Str Str :=
  let xmlWithFixedPaths := replaceZeroInPath xmlContent
  match removePrimarykeys xmlWithFixedPaths with
  | .error e => .error e
  | .ok xmlWithoutPrimarykeys =>
    match parseXML xmlWithoutPrimarykeys with
    | none => .error "Error cleaning XML".data
    | some parsedXml =>
      match removeObsolete parsedXml with
      | none => .error "Error cleaning XML".data
      | some cleaned => .ok (buildXML cleaned)

/-! ## Well-formedness predicates for the round-trip statements -/

/-- First character exists and is not whitespace. -/
def headNonWS (s : Str) : Bool :=
  match s with
  | [] => false
  | c :: _ => !isWSChar c

/-- Last character exists and is not whitespace. -/
def lastNonWS (s : Str) : Bool := headNonWS s.reverse

/-- No line-break characters. -/
def noNL (s : Str) : Bool := s.all (fun c => c ≠ '\n' && c ≠ '\r')

/-- No occurrence of `delim` begins strictly inside `s` when `delim`
follows it (the boundary-collision freedom the envelope invariant asks
of part content). -/
def noDelimInside (delim s : Str) : Bool :=
  (List.range s.length).all (fun k => !delim.isPrefixOf ((s ++ delim).drop k))

/-- The header-object fold the scan performs over a run of header pairs. -/
def foldHeaders (acc : List (Str × Str)) (pairs : List (Str × Str)) : List (Str × Str) :=
  pairs.foldl (fun m kv => upsertHeader m kv.1 kv.2) acc

/-- A header pair that survives rendering and reparsing unchanged: key and
value are single trimmed nonempty lines and the key contains no colon
(values may contain colons). -/
def wfHeaderPair (kv : Str × Str) : Bool :=
  headNonWS kv.1 && lastNonWS kv.1 && noNL kv.1 && noDelimInside [':'] kv.1 &&
  headNonWS kv.2 && lastNonWS kv.2 && noNL kv.2

/-- A body line that the scan treats as pure body: a single trimmed
nonempty line that does not parse as a `key: value` header. -/
def wfBodyLine (l : Str) : Bool :=
  noNL l && headNonWS l && lastNonWS l && (parseHeaderLineJS l).isNone

/-- Well-formedness of one rendered part for the round trip: at least one
header (the parser discards the first line), well-formed headers with
distinct keys, at least one well-formed body line, and no boundary
collision inside the rendered content. -/
@[reducible] def wfRenderPart (delim : Str) (p : RenderPart) : Prop :=
  p.headers ≠ [] ∧
  (∀ kv ∈ p.headers, wfHeaderPair kv = true) ∧
  (p.headers.map Prod.fst).Nodup ∧
  p.bodyLines ≠ [] ∧
  (∀ l ∈ p.bodyLines, wfBodyLine l = true) ∧
  noDelimInside delim (renderPartInner p) = true

/-- The tail of the rendering after the first separator: each part's inner
content followed by the next separator, ending with the `--` that remains
of the terminal marker. -/
def renderRest (b : Str) : List RenderPart → Str
  | [] => "--".data
  | p :: ps => renderPartInner p ++ ("--".data ++ b) ++ renderRest b ps

/-! ## Concrete instances used by the claim theorems -/

/-- A rendered part with one header and a one-line body. -/
def p3 : RenderPart := { headers := [("A".data, "B".data)], bodyLines := ["C".data] }

/-- A single-part batch body ending with the terminal marker `--b--`. -/
def c4raw : Str :=
  "--b\r\nContent-Type: application/http\r\n\r\nGET x HTTP/1.1\r\n--b--".data

/-- The claim's embedded batch body for path extraction. -/
def body5 : Str := "GET Consumption/Model?x=1 HTTP/1.1\r\nHost: example.com".data

/-- The claim's caller request path (as Express reports it, with its
leading slash). -/
def path5 : Str := "/datasphere/foo/$batch".data

/-- A well-formed two-header part used to instantiate the amended round
trip. -/
def p3w : RenderPart :=
  { headers := [("Content-Type".data, "application/http".data), ("A".data, "B:q".data)]
    bodyLines := ["GET x HTTP/1.1".data, "z".data] }

/-- Tail lines used to instantiate the first-line-discard theorem. -/
def c10rest : List Str := ["A: B".data, [], "GET x HTTP/1.1".data]

/-- An annotation group whose `/_0` target carries a `Common.Label`. -/
def c8gLab : XElem :=
  .mk "Annotations".data [("Target".data, "A/_0X".data)]
    [.mk "Annotation".data [("Term".data, "Common.Label".data), ("String".data, "Key".data)] []]

/-- An annotation group whose `/_0` target has no `Common.Label`. -/
def c8gNoLab : XElem :=
  .mk "Annotations".data [("Target".data, "B/_0Y".data)]
    [.mk "Annotation".data [("Term".data, "Core.Hidden".data)] []]

/-- A document holding both groups. -/
def c8root : XElem := .mk "Schema".data [] [c8gLab, c8gNoLab]

/-- Metadata input with an underscore-prefixed and a plain `Property`. -/
def x6 : Str :=
  "<Schema><Property Name=\"_internal\"/><Property Name=\"internal\"/></Schema>".data

/-- Output of `cleanXML` on `x6`. -/
def x6out : Str := ("<?xml version=\"1.0\" encoding=\"UTF-8\" standalone=\"yes\"?>\n" ++
  "<Schema>\n  <Property Name=\"_internal\"/>\n  <Property Name=\"internal\"/>\n</Schema>").data

end PocAlp

/-! # Theorems -/

set_option maxRecDepth 100000
set_option maxHeartbeats 4000000

namespace PocAlp

/-! ### Toolkit: trimming -/

/-- Dropping while a predicate holds skips a block it holds on. -/
theorem dropWhile_append_all {p : Char → Bool} (xs ys : Str)
    (h : ∀ c ∈ xs, p c = true) :
    (xs ++ ys).dropWhile p = ys.dropWhile p := by
  induction xs with
  | nil => rfl
  | cons c cs ih =>
    simp only [List.cons_append, List.dropWhile_cons, h c (List.mem_cons_self c cs),
      if_true]
    exact ih (fun d hd => h d (List.mem_cons_of_mem c hd))

/-- Left trim stops at a non-whitespace head. -/
theorem trimLeftL_cons_of_not_ws (c : Char) (s : Str) (h : isWSChar c = false) :
    trimLeftL (c :: s) = c :: s := by
  simp [trimLeftL, List.dropWhile_cons, h]

/-- Left trim is the identity on a non-whitespace head. -/
theorem trimLeftL_eq_self_of_headNonWS (s : Str) (h : headNonWS s = true) :
    trimLeftL s = s := by
  cases s with
  | nil => rfl
  | cons c cs =>
    simp only [headNonWS, Bool.not_eq_true'] at h
    exact trimLeftL_cons_of_not_ws c cs h

/-- Right trim is the identity when the last character is not whitespace. -/
theorem trimRightL_eq_self_of_lastNonWS (s : Str) (h : lastNonWS s = true) :
    trimRightL s = s := by
  unfold lastNonWS at h
  unfold trimRightL
  cases hs : s.reverse with
  | nil =>
    have h0 : s = [] := List.reverse_eq_nil_iff.mp hs
    simp [h0]
  | cons c cs =>
    have hw : isWSChar c = false := by
      rw [hs] at h
      simpa [headNonWS] using h
    rw [List.dropWhile_cons, if_neg (by simp [hw]), ← hs, List.reverse_reverse]

/-- Trim is the identity on a string with non-whitespace endpoints. -/
theorem trimL_eq_self (s : Str) (h1 : headNonWS s = true) (h2 : lastNonWS s = true) :
    trimL s = s := by
  unfold trimL
  rw [trimLeftL_eq_self_of_headNonWS s h1, trimRightL_eq_self_of_lastNonWS s h2]

/-- A head survives appending on the right. -/
theorem headNonWS_append (a b : Str) (h : headNonWS a = true) :
    headNonWS (a ++ b) = true := by
  cases a with
  | nil => cases h
  | cons c cs => exact h

/-- A last character survives appending on the left. -/
theorem lastNonWS_append (a b : Str) (h : lastNonWS b = true) :
    lastNonWS (a ++ b) = true := by
  unfold lastNonWS at h ⊢
  rw [List.reverse_append]
  exact headNonWS_append b.reverse a.reverse h

/-- Left trim skips a leading CRLF. -/
theorem trimLeftL_crlf (s : Str) : trimLeftL ('\r' :: '\n' :: s) = trimLeftL s := by
  simp [trimLeftL, List.dropWhile_cons, isWSChar]

/-- Right trim removes a trailing CRLF. -/
theorem trimRightL_crlf (s : Str) : trimRightL (s ++ '\r' :: '\n' :: []) = trimRightL s := by
  unfold trimRightL
  rw [List.reverse_append]
  simp [List.dropWhile_cons, isWSChar]

/-- Trimming a CRLF-wrapped block with non-whitespace endpoints yields the
block. -/
theorem trimL_crlf_wrap (mid : Str) (h1 : headNonWS mid = true) (h2 : lastNonWS mid = true) :
    trimL ('\r' :: '\n' :: (mid ++ '\r' :: '\n' :: [])) = mid := by
  unfold trimL
  rw [trimLeftL_crlf, trimLeftL_eq_self_of_headNonWS _ (headNonWS_append mid _ h1),
    trimRightL_crlf, trimRightL_eq_self_of_lastNonWS mid h2]

/-- A trimmed string with a non-whitespace head is nonempty. -/
theorem trimL_ne_nil_of_headNonWS (s : Str) (h : headNonWS s = true) :
    trimL s ≠ [] := by
  unfold trimL
  rw [trimLeftL_eq_self_of_headNonWS s h]
  intro hnil
  unfold trimRightL at hnil
  have h2 : s.reverse.dropWhile isWSChar = [] := by
    have := congrArg List.reverse hnil
    simpa using this
  rw [List.dropWhile_eq_nil_iff] at h2
  cases s with
  | nil => cases h
  | cons c cs =>
    simp only [headNonWS, Bool.not_eq_true'] at h
    have hc : c ∈ (c :: cs).reverse := by simp
    have := h2 c hc
    rw [h] at this
    cases this

/-! ### Toolkit: line splitting -/

/-- A no-line-break block is consumed into the accumulator. -/
theorem splitLinesAux_consume (l : Str) (hl : noNL l = true) :
    ∀ (s acc : Str) (fuel : Nat), l.length ≤ fuel →
      splitLinesAux fuel (l ++ s) acc = splitLinesAux (fuel - l.length) s (l.reverse ++ acc) := by
  induction l with
  | nil => intro s acc fuel _; simp
  | cons c cs ih =>
    intro s acc fuel hf
    have hc : (c ≠ '\n' && c ≠ '\r') = true :=
      List.all_eq_true.mp hl c (List.mem_cons_self c cs)
    have hcn : ¬(c = '\n') := by
      intro h; rw [h] at hc; simp at hc
    have hcr : ¬(c = '\r' ∧ (cs ++ s).head? = some '\n') := by
      intro h; rw [h.1] at hc; simp at hc
    have hlen : (c :: cs).length = cs.length + 1 := List.length_cons c cs
    cases fuel with
    | zero => omega
    | succ f =>
      show splitLinesAux (f + 1) (c :: (cs ++ s)) acc = _
      conv_lhs => rw [splitLinesAux]
      rw [if_neg hcn, if_neg hcr]
      have hcs : noNL cs = true :=
        List.all_eq_true.mpr (fun d hd => List.all_eq_true.mp hl d (List.mem_cons_of_mem c hd))
      rw [ih hcs s (c :: acc) f (by omega)]
      congr 1
      · omega
      · simp

/-- Splitting after exhausting the input. -/
theorem splitLinesAux_nil (fuel : Nat) (acc : Str) :
    splitLinesAux (fuel + 1) [] acc = [acc.reverse] := rfl

/-- A CRLF closes the current line. -/
theorem splitLinesAux_crlf (fuel : Nat) (s acc : Str) :
    splitLinesAux (fuel + 1) ('\r' :: '\n' :: s) acc = acc.reverse :: splitLinesAux fuel s [] := by
  conv_lhs => rw [splitLinesAux]
  rw [if_neg (by decide), if_pos (by simp)]
  rfl

/-- The split is fuel-insensitive above the input length. -/
theorem splitLinesAux_fuel (f1 f2 : Nat) :
    ∀ (s acc : Str), s.length + 1 ≤ f1 → s.length + 1 ≤ f2 →
      splitLinesAux f1 s acc = splitLinesAux f2 s acc := by
  induction f1 generalizing f2 with
  | zero => intro s acc h1 _; omega
  | succ f1' ih =>
    intro s acc h1 h2
    cases f2 with
    | zero => omega
    | succ f2' =>
      cases s with
      | nil => rfl
      | cons c rest =>
        show splitLinesAux (f1' + 1) (c :: rest) acc = splitLinesAux (f2' + 1) (c :: rest) acc
        unfold splitLinesAux
        by_cases hn : c = '\n'
        · rw [if_pos hn, if_pos hn,
            ih f2' rest [] (by simp at h1 ⊢; omega) (by simp at h2 ⊢; omega)]
        · rw [if_neg hn, if_neg hn]
          by_cases hr : c = '\r' ∧ rest.head? = some '\n'
          · rw [if_pos hr, if_pos hr,
              ih f2' rest.tail []
                (by have := List.length_tail rest; simp at h1 ⊢; omega)
                (by have := List.length_tail rest; simp at h2 ⊢; omega)]
          · rw [if_neg hr, if_neg hr,
              ih f2' rest (c :: acc) (by simp at h1 ⊢; omega) (by simp at h2 ⊢; omega)]

/-- Splitting a single no-line-break line. -/
theorem splitLinesL_single (l : Str) (h : noNL l = true) : splitLinesL l = [l] := by
  unfold splitLinesL
  have h1 := splitLinesAux_consume l h [] [] (l.length + 1) (by omega)
  rw [List.append_nil] at h1
  rw [h1]
  have h2 : l.length + 1 - l.length = 0 + 1 := by omega
  rw [h2, splitLinesAux_nil]
  simp

/-- Splitting after a leading line and CRLF peels the line off. -/
theorem splitLinesL_cons (l s : Str) (h : noNL l = true) :
    splitLinesL (l ++ '\r' :: '\n' :: s) = l :: splitLinesL s := by
  unfold splitLinesL
  have hfuel : l.length ≤ (l ++ '\r' :: '\n' :: s).length + 1 := by simp; omega
  rw [splitLinesAux_consume l h ('\r' :: '\n' :: s) [] ((l ++ '\r' :: '\n' :: s).length + 1)
    hfuel]
  have hlen : (l ++ '\r' :: '\n' :: s).length + 1 - l.length = s.length + 2 + 1 := by
    simp
    omega
  rw [hlen, splitLinesAux_crlf]
  rw [splitLinesAux_fuel (s.length + 2) (s.length + 1) s [] (by omega) (by omega)]
  simp

/-! ### Toolkit: prefix tests and boundary splitting -/

/-- A list is a Boolean prefix of itself followed by anything. -/
theorem isPrefixOf_self_append (p s : Str) : p.isPrefixOf (p ++ s) = true := by
  induction p with
  | nil => cases s <;> rfl
  | cons c cs ih =>
    show (c == c && cs.isPrefixOf (cs ++ s)) = true
    simp [ih]

/-- The prefix test only looks at the first `p.length` characters. -/
theorem isPrefixOf_congr_long (p a b : Str) (hlen : p.length ≤ a.length) :
    p.isPrefixOf (a ++ b) = p.isPrefixOf a := by
  induction p generalizing a with
  | nil => simp [List.isPrefixOf]
  | cons c cs ih =>
    cases a with
    | nil => simp at hlen
    | cons d ds =>
      show (c == d && cs.isPrefixOf (ds ++ b)) = (c == d && cs.isPrefixOf ds)
      rw [ih ds (by simpa using hlen)]

/-- A successful prefix test splits the string. -/
theorem prefix_append_drop (p s : Str) (h : p.isPrefixOf s = true) :
    p ++ s.drop p.length = s := by
  induction p generalizing s with
  | nil => simp
  | cons c cs ih =>
    cases s with
    | nil => cases h
    | cons d ds =>
      have h2 : (c == d) = true ∧ cs.isPrefixOf ds = true := by
        simpa [List.isPrefixOf, Bool.and_eq_true] using h
      have hc : c = d := by simpa using h2.1
      subst hc
      simpa using ih ds h2.2

/-- A longer list is never a prefix of a shorter one. -/
theorem isPrefixOf_false_of_longer (p s : Str) (h : s.length < p.length) :
    p.isPrefixOf s = false := by
  induction p generalizing s with
  | nil => simp at h
  | cons c cs ih =>
    cases s with
    | nil => rfl
    | cons d ds =>
      show (c == d && cs.isPrefixOf ds) = false
      rw [ih ds (by simpa using h)]
      simp

/-- Boundary-collision freedom transfers to the tail. -/
theorem noDelimInside_shift (sep : Str) (c : Char) (s : Str)
    (h : noDelimInside sep (c :: s) = true) : noDelimInside sep s = true := by
  rw [noDelimInside, List.all_eq_true] at h ⊢
  intro k hk
  have hk2 : k + 1 ∈ List.range (c :: s).length := by
    simp only [List.mem_range, List.length_cons] at hk ⊢
    omega
  have := h (k + 1) hk2
  simpa [List.cons_append, List.drop_succ_cons] using this

/-- With collision freedom, the separator does not match at the head of
`inner ++ sep ++ rest` when `inner` is nonempty. -/
theorem noDelimInside_head_false (sep inner rest : Str)
    (h : noDelimInside sep inner = true) (hinner : inner ≠ []) :
    sep.isPrefixOf (inner ++ sep ++ rest) = false := by
  have h0 : 0 ∈ List.range inner.length := by
    simp only [List.mem_range]
    cases inner with
    | nil => exact absurd rfl hinner
    | cons c cs => simp
  have := List.all_eq_true.mp (by rw [noDelimInside] at h; exact h) 0 h0
  rw [List.drop_zero] at this
  rw [isPrefixOf_congr_long sep (inner ++ sep) rest (by rw [List.length_append]; omega)]
  simpa using this

/-- Splitting at a separator occurrence emits the accumulated segment. -/
theorem splitOnAuxL_delim (sep s acc : Str) (fuel : Nat) (hsep : sep ≠ []) :
    splitOnAuxL sep (fuel + 1) (sep ++ s) acc = acc.reverse :: splitOnAuxL sep fuel s [] := by
  cases sep with
  | nil => exact absurd rfl hsep
  | cons c cs =>
    show splitOnAuxL (c :: cs) (fuel + 1) (c :: (cs ++ s)) acc = _
    conv_lhs => rw [splitOnAuxL]
    rw [if_pos (by
      rw [show (c :: (cs ++ s)) = (c :: cs) ++ s from rfl]
      exact isPrefixOf_self_append (c :: cs) s)]
    congr 1
    rw [show (c :: (cs ++ s)) = (c :: cs) ++ s from rfl, List.drop_left]

/-- A collision-free block before the next separator is consumed whole. -/
theorem splitOnAuxL_consume (sep inner : Str) (h : noDelimInside sep inner = true) :
    ∀ (rest acc : Str) (fuel : Nat), inner.length ≤ fuel →
      splitOnAuxL sep fuel (inner ++ sep ++ rest) acc
        = splitOnAuxL sep (fuel - inner.length) (sep ++ rest) (inner.reverse ++ acc) := by
  induction inner with
  | nil => intro rest acc fuel _; simp
  | cons c cs ih =>
    intro rest acc fuel hf
    have hlen : (c :: cs).length = cs.length + 1 := List.length_cons c cs
    cases fuel with
    | zero => omega
    | succ f =>
      show splitOnAuxL sep (f + 1) (c :: (cs ++ sep ++ rest)) acc = _
      conv_lhs => rw [splitOnAuxL]
      rw [if_neg (by
        have hfalse := noDelimInside_head_false sep (c :: cs) rest h (by simp)
        intro hcontra
        rw [show c :: (cs ++ sep ++ rest) = (c :: cs) ++ sep ++ rest from rfl] at hcontra
        rw [hcontra] at hfalse
        cases hfalse)]
      rw [ih (noDelimInside_shift sep c cs h) rest (c :: acc) f (by omega)]
      congr 1
      · omega
      · simp

/-- Without any separator occurrence the rest is one segment. -/
theorem splitOnAuxL_no_match (sep : Str) :
    ∀ (s acc : Str) (fuel : Nat), (∀ k, sep.isPrefixOf (s.drop k) = false) →
      s.length ≤ fuel → splitOnAuxL sep fuel s acc = [acc.reverse ++ s] := by
  intro s
  induction s with
  | nil =>
    intro acc fuel _ _
    cases fuel with
    | zero => rfl
    | succ f => simp [splitOnAuxL]
  | cons c cs ih =>
    intro acc fuel h hf
    have hlen : (c :: cs).length = cs.length + 1 := List.length_cons c cs
    cases fuel with
    | zero => omega
    | succ f =>
      conv_lhs => rw [splitOnAuxL]
      rw [if_neg (by have := h 0; rw [List.drop_zero] at this; simp [this])]
      rw [ih (c :: acc) f (fun k => by have := h (k + 1); simpa [List.drop_succ_cons] using this) (by omega)]
      simp

/-- Boundary splitting is fuel-insensitive above the input length. -/
theorem splitOnAuxL_fuel (sep : Str) (hsep : sep ≠ []) (f1 f2 : Nat) :
    ∀ (s acc : Str), s.length + 1 ≤ f1 → s.length + 1 ≤ f2 →
      splitOnAuxL sep f1 s acc = splitOnAuxL sep f2 s acc := by
  have hsl : 1 ≤ sep.length := by
    cases sep with
    | nil => exact absurd rfl hsep
    | cons x xs => simp
  induction f1 generalizing f2 with
  | zero => intro s acc h1 _; omega
  | succ f1' ih =>
    intro s acc h1 h2
    cases f2 with
    | zero => omega
    | succ f2' =>
      cases s with
      | nil => rfl
      | cons c rest =>
        have hlen : (c :: rest).length = rest.length + 1 := List.length_cons c rest
        show splitOnAuxL sep (f1' + 1) (c :: rest) acc = splitOnAuxL sep (f2' + 1) (c :: rest) acc
        unfold splitOnAuxL
        by_cases hp : sep.isPrefixOf (c :: rest) = true
        · rw [if_pos hp, if_pos hp,
            ih f2' ((c :: rest).drop sep.length) []
              (by rw [List.length_drop]; omega) (by rw [List.length_drop]; omega)]
        · rw [if_neg hp, if_neg hp,
            ih f2' rest (c :: acc) (by omega) (by omega)]

/-- The splitter never returns an empty list of segments. -/
theorem splitOnAuxL_ne_nil (sep : Str) :
    ∀ (fuel : Nat) (s acc : Str), splitOnAuxL sep fuel s acc ≠ [] := by
  intro fuel
  induction fuel with
  | zero => intro s acc; simp [splitOnAuxL]
  | succ f ih =>
    intro s acc
    cases s with
    | nil => simp [splitOnAuxL]
    | cons c rest =>
      unfold splitOnAuxL
      by_cases hp : sep.isPrefixOf (c :: rest) = true
      · rw [if_pos hp]; simp
      · rw [if_neg hp]; exact ih rest (c :: acc)

/-- Joining the split segments with the separator restores the string. -/
theorem intercalateL_splitOnAuxL (sep : Str) :
    ∀ (fuel : Nat) (s acc : Str),
      intercalateL sep (splitOnAuxL sep fuel s acc) = acc.reverse ++ s := by
  intro fuel
  induction fuel with
  | zero => intro s acc; rfl
  | succ f ih =>
    intro s acc
    cases s with
    | nil => simp [splitOnAuxL, intercalateL]
    | cons c rest =>
      unfold splitOnAuxL
      by_cases hp : sep.isPrefixOf (c :: rest) = true
      · rw [if_pos hp]
        obtain ⟨y, ys, hy⟩ := List.exists_cons_of_ne_nil (splitOnAuxL_ne_nil sep f ((c :: rest).drop sep.length) [])
        rw [hy]
        show acc.reverse ++ sep ++ intercalateL sep (y :: ys) = acc.reverse ++ (c :: rest)
        rw [← hy, ih ((c :: rest).drop sep.length) []]
        rw [List.append_assoc]
        rw [show (List.reverse [] : Str) ++ (c :: rest).drop sep.length = (c :: rest).drop sep.length by simp]
        rw [prefix_append_drop sep (c :: rest) hp]
      · rw [if_neg hp, ih rest (c :: acc)]
        simp

/-- Joining the split segments restores the input. -/
theorem intercalateL_splitOnL (sep s : Str) : intercalateL sep (splitOnL sep s) = s := by
  unfold splitOnL
  rw [intercalateL_splitOnAuxL]
  rfl

/-- Splitting a string that starts with a collision-free block followed by
the separator peels the block off. -/
theorem splitOnL_consume_first (sep inner rest : Str) (hsep : sep ≠ [])
    (h : noDelimInside sep inner = true) :
    splitOnL sep (inner ++ sep ++ rest) = inner :: splitOnL sep rest := by
  unfold splitOnL
  have hlen : (inner ++ sep ++ rest).length = inner.length + sep.length + rest.length := by
    simp [List.length_append]
    omega
  rw [splitOnAuxL_consume sep inner h rest [] ((inner ++ sep ++ rest).length + 1) (by omega)]
  have hlen2 : (inner ++ sep ++ rest).length + 1 - inner.length = (sep.length + rest.length) + 1 := by
    omega
  rw [hlen2, splitOnAuxL_delim sep rest (inner.reverse ++ []) (sep.length + rest.length) hsep]
  have hs1 : sep.length + rest.length ≥ rest.length + 1 := by
    cases sep with
    | nil => exact absurd rfl hsep
    | cons x xs => simp; omega
  rw [splitOnAuxL_fuel sep hsep (sep.length + rest.length) (rest.length + 1) rest [] (by omega) (by omega)]
  simp

/-- The rendering decomposes as separator followed by `renderRest`. -/
theorem renderClaim_decomp (P : List RenderPart) (b : Str) :
    renderClaim P b = ("--".data ++ b) ++ renderRest b P := by
  induction P with
  | nil => simp [renderClaim, renderRest, joinL]
  | cons p ps ih =>
    have ih2 : joinL (ps.map (fun p => "--".data ++ b ++ renderPartInner p)) ++
        "--".data ++ b ++ "--".data = ("--".data ++ b) ++ renderRest b ps := by
      simpa [renderClaim] using ih
    simp only [renderClaim, renderRest, List.map_cons, joinL, List.append_assoc] at ih2 ⊢
    rw [ih2]

/-- Splitting the rendering tail produces the inner segments and the
residual `--` of the terminal marker. -/
theorem split_renderRest (b : Str) (hb : b ≠ []) (P : List RenderPart) :
    (∀ p ∈ P, noDelimInside ("--".data ++ b) (renderPartInner p) = true) →
    ∀ (acc : Str) (fuel : Nat), (("--".data ++ b) ++ renderRest b P).length ≤ fuel →
      splitOnAuxL ("--".data ++ b) fuel (("--".data ++ b) ++ renderRest b P) acc
        = acc.reverse :: (P.map renderPartInner ++ ["--".data]) := by
  have hsepne : ("--".data ++ b) ≠ [] := by simp
  have htwo : ("--".data : Str).length = 2 := rfl
  have hseplen : ("--".data ++ b).length = 2 + b.length := List.length_append _ b
  have hblen : 1 ≤ b.length := by
    cases b with
    | nil => exact absurd rfl hb
    | cons x xs => simp
  induction P with
  | nil =>
    intro _ acc fuel hf
    rw [show renderRest b ([] : List RenderPart) = "--".data from rfl] at hf ⊢
    have hlen4 : (("--".data ++ b) ++ "--".data).length = b.length + 4 := by
      simp only [List.length_append, htwo]
      omega
    rw [hlen4] at hf
    cases fuel with
    | zero => omega
    | succ f =>
      rw [splitOnAuxL_delim _ _ _ _ hsepne]
      rw [splitOnAuxL_no_match _ _ _ _
        (fun k => isPrefixOf_false_of_longer _ _ (by
          rw [List.length_drop, htwo, hseplen]; omega))
        (by rw [htwo]; omega)]
      simp
  | cons p ps ih =>
    intro hP acc fuel hf
    have hinner := hP p (List.mem_cons_self p ps)
    have hlenrest : (("--".data ++ b) ++ renderRest b (p :: ps)).length =
        (2 + b.length) + ((renderPartInner p).length + ((2 + b.length) + (renderRest b ps).length)) := by
      rw [show renderRest b (p :: ps)
          = renderPartInner p ++ ("--".data ++ b) ++ renderRest b ps from rfl]
      simp only [List.length_append, htwo]
      omega
    rw [hlenrest] at hf
    have hlentail : (("--".data ++ b) ++ renderRest b ps).length
        = (2 + b.length) + (renderRest b ps).length := by
      rw [List.length_append, hseplen]
    cases fuel with
    | zero => omega
    | succ f =>
      rw [show renderRest b (p :: ps)
          = renderPartInner p ++ ("--".data ++ b) ++ renderRest b ps from rfl]
      rw [splitOnAuxL_delim _ _ _ _ hsepne]
      rw [splitOnAuxL_consume _ _ hinner (renderRest b ps) [] f (by omega)]
      rw [ih (fun q hq => hP q (List.mem_cons_of_mem p hq)) ((renderPartInner p).reverse ++ [])
        (f - (renderPartInner p).length) (by rw [hlentail]; omega)]
      simp

/-- Splitting the full rendering on the separator. -/
theorem splitOnL_render (b : Str) (hb : b ≠ []) (P : List RenderPart)
    (hP : ∀ p ∈ P, noDelimInside ("--".data ++ b) (renderPartInner p) = true) :
    splitOnL ("--".data ++ b) (renderClaim P b)
      = [] :: (P.map renderPartInner ++ ["--".data]) := by
  rw [renderClaim_decomp]
  unfold splitOnL
  rw [split_renderRest b hb P hP [] _ (by omega)]
  rfl

/-! ### Toolkit: header lines and the body scan -/

/-- Line-break freedom is preserved by appending. -/
theorem noNL_append (a b : Str) (ha : noNL a = true) (hb : noNL b = true) :
    noNL (a ++ b) = true := by
  rw [noNL, List.all_append]
  rw [noNL] at ha hb
  rw [ha, hb]
  rfl

/-- Rendered header lines contain no line break. -/
theorem noNL_renderHeaderLine (kv : Str × Str) (h : wfHeaderPair kv = true) :
    noNL (renderHeaderLine kv) = true := by
  simp only [wfHeaderPair, Bool.and_eq_true] at h
  exact noNL_append _ kv.2 (noNL_append kv.1 _ h.1.1.1.1.2 (by decide)) h.2

/-- Left trim crosses a leading space. -/
theorem trimLeftL_cons_space (s : Str) : trimLeftL (' ' :: s) = trimLeftL s := by
  simp [trimLeftL, List.dropWhile_cons, isWSChar]

/-- Trimming a space-led trimmed token removes only the space. -/
theorem trimL_space_cons (v : Str) (h1 : headNonWS v = true) (h2 : lastNonWS v = true) :
    trimL (' ' :: v) = v := by
  unfold trimL
  rw [trimLeftL_cons_space, trimLeftL_eq_self_of_headNonWS v h1,
    trimRightL_eq_self_of_lastNonWS v h2]

/-- Parsing a rendered `key: value` line recovers the pair. -/
theorem parseHeaderLine_render (k v : Str) (h : wfHeaderPair (k, v) = true) :
    parseHeaderLineJS (renderHeaderLine (k, v)) = some (k, v) := by
  simp only [wfHeaderPair, Bool.and_eq_true] at h
  obtain ⟨⟨⟨⟨⟨⟨hk1, hk2⟩, _⟩, hkc⟩, hv1⟩, hv2⟩, _⟩ := h
  have hk0 : k ≠ [] := by
    cases k with
    | nil => cases hk1
    | cons c cs => simp
  have hline : renderHeaderLine (k, v) = k ++ [':'] ++ (' ' :: v) := by
    simp [renderHeaderLine, List.append_assoc]
  rw [hline]
  unfold parseHeaderLineJS
  rw [splitOnL_consume_first [':'] k (' ' :: v) (by simp) hkc]
  obtain ⟨y, ys, hy⟩ := List.exists_cons_of_ne_nil
    (splitOnAuxL_ne_nil [':'] ((' ' :: v).length + 1) (' ' :: v) [])
  rw [show splitOnL [':'] (' ' :: v) = splitOnAuxL [':'] ((' ' :: v).length + 1) (' ' :: v) [] from rfl, hy]
  show (if k ≠ [] && intercalateL [':'] (y :: ys) ≠ [] then
    some (trimL k, trimL (intercalateL [':'] (y :: ys))) else none) = some (k, v)
  have hjoin : intercalateL [':'] (y :: ys) = ' ' :: v := by
    rw [← hy]
    rw [show splitOnAuxL [':'] ((' ' :: v).length + 1) (' ' :: v) [] = splitOnL [':'] (' ' :: v) from rfl]
    exact intercalateL_splitOnL [':'] (' ' :: v)
  rw [hjoin]
  rw [if_pos (by simp [hk0])]
  rw [trimL_eq_self k hk1 hk2, trimL_space_cons v hv1 hv2]

/-- The scan ignores lines that are neither blank nor header-shaped. -/
theorem scanHeaderLines_body (ls : List Str)
    (h : ∀ l ∈ ls, trimL l ≠ [] ∧ parseHeaderLineJS l = none) :
    ∀ (i : Nat) (hdrs : List (Str × Str)) (bodyIndex : Nat),
      scanHeaderLines ls i hdrs bodyIndex = (hdrs, bodyIndex) := by
  induction ls with
  | nil => intro i hdrs bodyIndex; rfl
  | cons l ls ih =>
    intro i hdrs bodyIndex
    have hl := h l (List.mem_cons_self l ls)
    unfold scanHeaderLines
    rw [if_neg hl.1, hl.2]
    exact ih (fun x hx => h x (List.mem_cons_of_mem l hx)) (i + 1) hdrs bodyIndex

/-- A blank line advances the body index past itself. -/
theorem scanHeaderLines_blank (ls : List Str) (i : Nat) (hdrs : List (Str × Str)) (bodyIndex : Nat) :
    scanHeaderLines ([] :: ls) i hdrs bodyIndex = scanHeaderLines ls (i + 1) hdrs (i + 1) := rfl

/-- The scan turns a run of rendered header lines into header upserts. -/
theorem scanHeaderLines_hdrs (pairs : List (Str × Str))
    (hwf : ∀ kv ∈ pairs, wfHeaderPair kv = true) :
    ∀ (rest : List Str) (i : Nat) (hdrs : List (Str × Str)) (bodyIndex : Nat),
      scanHeaderLines (pairs.map renderHeaderLine ++ rest) i hdrs bodyIndex
        = scanHeaderLines rest (i + pairs.length) (foldHeaders hdrs pairs) bodyIndex := by
  induction pairs with
  | nil => intro rest i hdrs bodyIndex; simp [foldHeaders]
  | cons kv ps ih =>
    intro rest i hdrs bodyIndex
    have hkv := hwf kv (List.mem_cons_self kv ps)
    have hhead : headNonWS (renderHeaderLine kv) = true := by
      simp only [wfHeaderPair, Bool.and_eq_true] at hkv
      exact headNonWS_append _ _ (headNonWS_append _ _ hkv.1.1.1.1.1.1)
    have htrim : trimL (renderHeaderLine kv) ≠ [] :=
      trimL_ne_nil_of_headNonWS _ hhead
    show scanHeaderLines (renderHeaderLine kv :: (ps.map renderHeaderLine ++ rest)) i hdrs bodyIndex = _
    conv_lhs => rw [scanHeaderLines]
    rw [if_neg htrim]
    rw [show parseHeaderLineJS (renderHeaderLine kv) = some (kv.1, kv.2) from
      parseHeaderLine_render kv.1 kv.2 (by rw [show (kv.1, kv.2) = kv from rfl]; exact hkv)]
    show scanHeaderLines (ps.map renderHeaderLine ++ rest) (i + 1) (upsertHeader hdrs kv.1 kv.2) bodyIndex = _
    rw [ih (fun x hx => hwf x (List.mem_cons_of_mem kv hx)) rest (i + 1) (upsertHeader hdrs kv.1 kv.2) bodyIndex]
    have harith : i + 1 + ps.length = i + (kv :: ps).length := by
      rw [List.length_cons]
      omega
    rw [harith]
    rfl

/-- Upserting a fresh key appends. -/
theorem upsertHeader_fresh (m : List (Str × Str)) (k v : Str) (h : ∀ p ∈ m, p.1 ≠ k) :
    upsertHeader m k v = m ++ [(k, v)] := by
  unfold upsertHeader
  rw [if_neg (by
    simp only [List.any_eq_true]
    rintro ⟨p, hp, hcontra⟩
    exact h p hp (by simpa using hcontra))]

/-- Folding distinct fresh headers into the object appends them in order. -/
theorem foldHeaders_disjoint (pairs : List (Str × Str)) :
    ∀ (acc : List (Str × Str)), (∀ p ∈ pairs, ∀ q ∈ acc, q.1 ≠ p.1) →
      (pairs.map Prod.fst).Nodup →
      foldHeaders acc pairs = acc ++ pairs := by
  induction pairs with
  | nil => intro acc _ _; simp [foldHeaders]
  | cons kv ps ih =>
    intro acc hdisj hnod
    show foldHeaders (upsertHeader acc kv.1 kv.2) ps = _
    rw [upsertHeader_fresh acc kv.1 kv.2 (fun q hq => hdisj kv (List.mem_cons_self kv ps) q hq)]
    rw [List.map_cons, List.nodup_cons] at hnod
    rw [ih (acc ++ [(kv.1, kv.2)]) (fun p hp q hq => by
      rcases List.mem_append.mp hq with hq1 | hq2
      · exact hdisj p (List.mem_cons_of_mem kv hp) q hq1
      · have hq3 : q = (kv.1, kv.2) := by simpa using hq2
        rw [hq3]
        intro hcontra
        exact hnod.1 (hcontra ▸ List.mem_map_of_mem Prod.fst hp)) hnod.2]
    simp

/-! ### Toolkit: lines of a rendered part -/

/-- Splitting the joined body lines recovers them. -/
theorem splitLinesL_interc (ls : List Str) (h : ∀ l ∈ ls, noNL l = true) (hne : ls ≠ []) :
    splitLinesL (intercalateL "\r\n".data ls) = ls := by
  induction ls with
  | nil => exact absurd rfl hne
  | cons l ls ih =>
    cases ls with
    | nil =>
      show splitLinesL (intercalateL "\r\n".data [l]) = [l]
      rw [show intercalateL "\r\n".data [l] = l from rfl]
      exact splitLinesL_single l (h l (List.mem_cons_self l []))
    | cons x xs =>
      rw [show intercalateL "\r\n".data (l :: x :: xs)
          = l ++ "\r\n".data ++ intercalateL "\r\n".data (x :: xs) from rfl]
      rw [show l ++ "\r\n".data ++ intercalateL "\r\n".data (x :: xs)
          = l ++ ('\r' :: '\n' :: intercalateL "\r\n".data (x :: xs)) by
        simp [List.append_assoc]]
      rw [splitLinesL_cons l _ (h l (List.mem_cons_self l (x :: xs)))]
      rw [ih (fun y hy => h y (List.mem_cons_of_mem l hy)) (by simp)]

/-- Splitting the rendered header block followed by the blank line and a
body block yields the header lines, a blank line, and the body's lines. -/
theorem splitLinesL_headerBlock (pairs : List (Str × Str))
    (hwf : ∀ kv ∈ pairs, wfHeaderPair kv = true) (B : Str) :
    splitLinesL (joinL (pairs.map (fun kv => renderHeaderLine kv ++ "\r\n".data)) ++ "\r\n".data ++ B)
      = pairs.map renderHeaderLine ++ [[]] ++ splitLinesL B := by
  induction pairs with
  | nil =>
    rw [show joinL (List.map (fun kv => renderHeaderLine kv ++ "\r\n".data) []) = [] from rfl]
    rw [show ([] : Str) ++ "\r\n".data ++ B = [] ++ ('\r' :: '\n' :: B) by simp]
    rw [splitLinesL_cons [] B (by decide)]
    simp
  | cons kv ps ih =>
    have hkv := hwf kv (List.mem_cons_self kv ps)
    rw [show joinL (List.map (fun kv => renderHeaderLine kv ++ "\r\n".data) (kv :: ps))
        = (renderHeaderLine kv ++ "\r\n".data) ++ joinL (List.map (fun kv => renderHeaderLine kv ++ "\r\n".data) ps) from rfl]
    rw [show (renderHeaderLine kv ++ "\r\n".data) ++ joinL (List.map (fun kv => renderHeaderLine kv ++ "\r\n".data) ps) ++ "\r\n".data ++ B
        = renderHeaderLine kv ++ ('\r' :: '\n' :: (joinL (List.map (fun kv => renderHeaderLine kv ++ "\r\n".data) ps) ++ "\r\n".data ++ B)) by
      simp [List.append_assoc]]
    rw [splitLinesL_cons _ _ (noNL_renderHeaderLine kv hkv)]
    rw [ih (fun x hx => hwf x (List.mem_cons_of_mem kv hx))]
    simp

/-- The last characters of joined body lines come from the last line. -/
theorem lastNonWS_interc (sep : Str) (ls : List Str)
    (h : ∀ l ∈ ls, lastNonWS l = true) (hne : ls ≠ []) :
    lastNonWS (intercalateL sep ls) = true := by
  induction ls with
  | nil => exact absurd rfl hne
  | cons l ls ih =>
    cases ls with
    | nil => exact h l (List.mem_cons_self l [])
    | cons x xs =>
      rw [show intercalateL sep (l :: x :: xs) = l ++ sep ++ intercalateL sep (x :: xs) from rfl]
      exact lastNonWS_append _ _ (ih (fun y hy => h y (List.mem_cons_of_mem l hy)) (by simp))

/-- Components of a well-formed body line. -/
theorem wfBodyLine_parts (l : Str) (h : wfBodyLine l = true) :
    noNL l = true ∧ headNonWS l = true ∧ lastNonWS l = true ∧ parseHeaderLineJS l = none := by
  simp only [wfBodyLine, Bool.and_eq_true] at h
  exact ⟨h.1.1.1, h.1.1.2, h.1.2, Option.isNone_iff_eq_none.mp h.2⟩

/-- The rendered part content exposed as a CRLF-wrapped block. -/
theorem renderPartInner_shape (p : RenderPart) :
    renderPartInner p
      = '\r' :: '\n' ::
        ((joinL (p.headers.map (fun kv => renderHeaderLine kv ++ "\r\n".data)) ++ "\r\n".data ++
          intercalateL "\r\n".data p.bodyLines) ++ ('\r' :: '\n' :: [])) := by
  simp [renderPartInner, List.append_assoc]

/-- Trimming a rendered part strips exactly the wrapping CRLFs. -/
theorem trimL_renderPartInner (p : RenderPart)
    (h1 : p.headers ≠ []) (h2 : ∀ kv ∈ p.headers, wfHeaderPair kv = true)
    (h4 : p.bodyLines ≠ []) (h5 : ∀ l ∈ p.bodyLines, wfBodyLine l = true) :
    trimL (renderPartInner p)
      = joinL (p.headers.map (fun kv => renderHeaderLine kv ++ "\r\n".data)) ++ "\r\n".data ++
        intercalateL "\r\n".data p.bodyLines := by
  obtain ⟨kv0, hrest, hhd⟩ := List.exists_cons_of_ne_nil h1
  have hkv0 := h2 kv0 (by rw [hhd]; exact List.mem_cons_self kv0 hrest)
  have hkv0h : headNonWS kv0.1 = true := by
    simp only [wfHeaderPair, Bool.and_eq_true] at hkv0
    exact hkv0.1.1.1.1.1.1
  have hmidh : headNonWS (joinL (p.headers.map (fun kv => renderHeaderLine kv ++ "\r\n".data)) ++ "\r\n".data ++
      intercalateL "\r\n".data p.bodyLines) = true := by
    apply headNonWS_append
    apply headNonWS_append
    rw [hhd]
    rw [show joinL ((kv0 :: hrest).map (fun kv => renderHeaderLine kv ++ "\r\n".data))
        = (renderHeaderLine kv0 ++ "\r\n".data) ++ joinL (hrest.map (fun kv => renderHeaderLine kv ++ "\r\n".data)) from rfl]
    apply headNonWS_append
    apply headNonWS_append
    exact headNonWS_append _ _ (headNonWS_append _ _ hkv0h)
  have hmidl : lastNonWS (joinL (p.headers.map (fun kv => renderHeaderLine kv ++ "\r\n".data)) ++ "\r\n".data ++
      intercalateL "\r\n".data p.bodyLines) = true := by
    apply lastNonWS_append
    exact lastNonWS_interc _ p.bodyLines (fun l hl => (wfBodyLine_parts l (h5 l hl)).2.2.1) h4
  rw [renderPartInner_shape p, trimL_crlf_wrap _ hmidh hmidl]

/-- Parsing one rendered part: the first header line is discarded, the
remaining headers are reconstructed, and the body is the joined body lines
(normalized to LF and trimmed). -/
theorem parseBatchPartSeg_render (p : RenderPart)
    (h1 : p.headers ≠ []) (h2 : ∀ kv ∈ p.headers, wfHeaderPair kv = true)
    (h3 : (p.headers.map Prod.fst).Nodup)
    (h4 : p.bodyLines ≠ []) (h5 : ∀ l ∈ p.bodyLines, wfBodyLine l = true) :
    parseBatchPartSeg (renderPartInner p)
      = { headers := p.headers.drop 1, body := trimL (intercalateL ['\n'] p.bodyLines) } := by
  obtain ⟨kv0, hrest, hhd⟩ := List.exists_cons_of_ne_nil h1
  unfold parseBatchPartSeg
  rw [trimL_renderPartInner p h1 h2 h4 h5]
  rw [splitLinesL_headerBlock p.headers h2 (intercalateL "\r\n".data p.bodyLines)]
  rw [splitLinesL_interc p.bodyLines (fun l hl => (wfBodyLine_parts l (h5 l hl)).1) h4]
  rw [hhd]
  rw [show (kv0 :: hrest).map renderHeaderLine = renderHeaderLine kv0 :: hrest.map renderHeaderLine from rfl]
  show parsePartLines (renderHeaderLine kv0 :: (hrest.map renderHeaderLine ++ [[]] ++ p.bodyLines)) = _
  conv_lhs => rw [parsePartLines]
  have hscan : scanHeaderLines (hrest.map renderHeaderLine ++ [[]] ++ p.bodyLines) 0 [] 0
      = (hrest, hrest.length + 1) := by
    rw [List.append_assoc]
    rw [scanHeaderLines_hdrs hrest
      (fun kv hkv => h2 kv (by rw [hhd]; exact List.mem_cons_of_mem kv0 hkv))
      ([[]] ++ p.bodyLines) 0 [] 0]
    rw [show ([[]] ++ p.bodyLines : List Str) = [] :: p.bodyLines from rfl,
      scanHeaderLines_blank]
    rw [scanHeaderLines_body p.bodyLines (fun l hl =>
      ⟨trimL_ne_nil_of_headNonWS l (wfBodyLine_parts l (h5 l hl)).2.1,
       (wfBodyLine_parts l (h5 l hl)).2.2.2⟩)]
    have hfold : foldHeaders [] hrest = hrest := by
      have hnod : (hrest.map Prod.fst).Nodup := by
        rw [hhd, List.map_cons, List.nodup_cons] at h3
        exact h3.2
      rw [foldHeaders_disjoint hrest [] (fun p _ q hq => absurd hq (List.not_mem_nil q)) hnod]
      simp
    rw [hfold]
    simp
  rw [hscan]
  have hdrop : (hrest.map renderHeaderLine ++ [[]] ++ p.bodyLines).drop (hrest.length + 1)
      = p.bodyLines := by
    have hl2 : hrest.length + 1 = (hrest.map renderHeaderLine ++ [[]]).length := by
      simp
    rw [hl2, List.drop_left]
  rw [hdrop]
  rw [show (kv0 :: hrest).drop 1 = hrest from rfl]

/-! ### Serializer round trip: characters, whitespace, takeWhile -/

theorem intercalateL_cons_ne (sep a : Str) (l : List Str) (h : l ≠ []) :
    intercalateL sep (a :: l) = a ++ sep ++ intercalateL sep l := by
  cases l with
  | nil => exact absurd rfl h
  | cons b bs => rfl

theorem intercalateL_append_ne (sep : Str) (A B : List Str) (hA : A ≠ []) (hB : B ≠ []) :
    intercalateL sep (A ++ B) = intercalateL sep A ++ sep ++ intercalateL sep B := by
  induction A with
  | nil => exact absurd rfl hA
  | cons a as ih =>
    cases has : as with
    | nil =>
      subst has
      rw [List.cons_append, List.nil_append, intercalateL_cons_ne sep a B hB]
      rfl
    | cons a2 as2 =>
      subst has
      rw [List.cons_append, intercalateL_cons_ne sep a ((a2 :: as2) ++ B) (by simp),
          intercalateL_cons_ne sep a (a2 :: as2) (by simp), ih (by simp)]
      simp [List.append_assoc]

theorem buildElemLines_ne_nil (ind : Nat) (e : XElem) : buildElemLines ind e ≠ [] := by
  cases e with
  | mk n a cs => cases cs <;> simp [buildElemLines]

theorem buildChildrenLines_ne_nil (ind : Nat) (cs : List XElem) (h : cs ≠ []) :
    buildChildrenLines ind cs ≠ [] := by
  cases cs with
  | nil => exact absurd rfl h
  | cons c cs' =>
    show buildElemLines ind c ++ buildChildrenLines ind cs' ≠ []
    intro hx
    exact buildElemLines_ne_nil ind c (List.append_eq_nil.mp hx).1

theorem childrenBlock_eq (ind : Nat) (cs : List XElem) (h : cs ≠ []) :
    '\n' :: intercalateL ['\n'] (buildChildrenLines ind cs) = childrenBlock ind cs := by
  induction cs with
  | nil => exact absurd rfl h
  | cons c cs' ih =>
    cases hcs : cs' with
    | nil =>
      subst hcs
      show '\n' :: intercalateL ['\n'] (buildElemLines ind c ++ []) = ('\n' :: flatT ind c) ++ []
      rw [List.append_nil, List.append_nil]
      rfl
    | cons c2 cs2 =>
      subst hcs
      show '\n' :: intercalateL ['\n']
          (buildElemLines ind c ++ buildChildrenLines ind (c2 :: cs2))
        = ('\n' :: flatT ind c) ++ childrenBlock ind (c2 :: cs2)
      rw [intercalateL_append_ne ['\n'] _ _ (buildElemLines_ne_nil ind c)
            (buildChildrenLines_ne_nil ind (c2 :: cs2) (by simp)),
          ← ih (by simp)]
      simp [flatT, List.append_assoc]

/-! ### Serializer round trip: well-formedness projections -/

theorem flatT_leaf (ind : Nat) (n : Str) (a : List (Str × Str)) :
    flatT ind (.mk n a []) = indentStr ind ++ '<' :: (n ++ buildAttrs a) ++ "/>".data := rfl

theorem flatT_cons (ind : Nat) (n : Str) (a : List (Str × Str)) (c : XElem) (cs : List XElem) :
    flatT ind (.mk n a (c :: cs))
      = (indentStr ind ++ '<' :: (n ++ buildAttrs a) ++ ['>'])
        ++ (childrenBlock (ind + 1) (c :: cs)
        ++ ('\n' :: (indentStr ind ++ ('<' :: '/' :: (n ++ ['>']))))) := by
  have hL : buildChildrenLines (ind + 1) (c :: cs) ≠ [] :=
    buildChildrenLines_ne_nil _ _ (by simp)
  show intercalateL ['\n'] ((indentStr ind ++ '<' :: (n ++ buildAttrs a) ++ ['>']) ::
        (buildChildrenLines (ind + 1) (c :: cs) ++ [indentStr ind ++ '<' :: '/' :: n ++ ['>']]))
      = _
  rw [intercalateL_cons_ne _ _ _ (by simp),
      intercalateL_append_ne ['\n'] _ _ hL (by simp),
      ← childrenBlock_eq (ind + 1) (c :: cs) (by simp)]
  simp [intercalateL, List.append_assoc]

theorem buildAttrs_cons (kv : Str × Str) (a' : List (Str × Str)) :
    buildAttrs (kv :: a') = (' ' :: (kv.1 ++ '=' :: '"' :: kv.2 ++ ['"'])) ++ buildAttrs a' := rfl

theorem buildAttrs_len (a : List (Str × Str)) : a.length ≤ (buildAttrs a).length := by
  induction a with
  | nil => exact Nat.zero_le _
  | cons kv a' ih =>
    rw [buildAttrs_cons]
    simp only [List.length_cons, List.length_append]
    omega

theorem elemWeight_eq (n : Str) (a : List (Str × Str)) (cs : List XElem) :
    elemWeight (.mk n a cs) = 1 + (a.length + 1) + childrenWeight cs := rfl

theorem childrenWeight_cons (c : XElem) (cs : List XElem) :
    childrenWeight (c :: cs) = 1 + elemWeight c + childrenWeight cs := rfl

mutual

theorem elemWeight_le (ind : Nat) (e : XElem) : elemWeight e ≤ (flatT ind e).length := by
  cases e with
  | mk n a cs =>
    cases cs with
    | nil =>
      rw [elemWeight_eq, flatT_leaf]
      have hb := buildAttrs_len a
      have hcw : childrenWeight ([] : List XElem) = 1 := rfl
      rw [hcw]
      simp only [List.length_append, List.length_cons, List.length_nil, indentStr,
        List.length_replicate]
      omega
    | cons c cs' =>
      rw [elemWeight_eq, flatT_cons]
      have hb := buildAttrs_len a
      have hblk := childrenWeight_le (ind + 1) (c :: cs')
      simp only [List.length_append, List.length_cons, indentStr, List.length_replicate]
      omega

theorem childrenWeight_le (ind : Nat) (cs : List XElem) :
    childrenWeight cs ≤ (childrenBlock ind cs).length + 1 := by
  cases cs with
  | nil => exact Nat.le_refl 1
  | cons c cs' =>
    rw [childrenWeight_cons]
    have h1 := elemWeight_le ind c
    have h2 := childrenWeight_le ind cs'
    show 1 + elemWeight c + childrenWeight cs'
      ≤ (('\n' :: flatT ind c) ++ childrenBlock ind cs').length + 1
    simp only [List.length_append, List.length_cons]
    omega

end

/-- The coercion `Number(x) || 0` never leaves a `NaN` behind. -/
theorem orZeroJS_not_nan (v : Option Int) : jsIsNaN (orZeroJS v) = false := by
  unfold orZeroJS jsIsNaN
  split <;> rfl

/-- C1 counterexample: with `$skip=abc&$top=5` the pagination step of
`processBatchRequest` succeeds with count `0 + 5*2 = 10`; no
`ValidationError` (nor any error) is raised for the non-numeric value. -/
theorem c1_counterexample :
    paginationStep (some "abc".data) (some "5".data) = .ok 10 := rfl

/-- C1 amended: the injected count is always
`(Number($skip) || 0) + (Number($top) || 0) * 2` and the step never fails —
`Number(x) || 0` coerces `NaN` to `0` before the `isNaN` guard, so a
present but non-numeric value silently defaults to `0`.  In particular
`$skip=10&$top=5` gives 20, absent parameters give 0, and `$skip=abc&$top=5`
gives 10. -/
theorem c1_amended :
    (∀ skipQ topQ, paginationStep skipQ topQ =
      .ok ((orZeroJS (jsNumberQuery skipQ)).getD 0 +
           (orZeroJS (jsNumberQuery topQ)).getD 0 * 2)) ∧
    paginationStep (some "10".data) (some "5".data) = .ok 20 ∧
    paginationStep none none = .ok 0 ∧
    paginationStep (some "abc".data) (some "5".data) = .ok 10 := by
  refine ⟨fun skipQ topQ => ?_, rfl, rfl, rfl⟩
  unfold paginationStep
  simp [orZeroJS_not_nan]

/-- C2: for every forwarded JSON string and every clock reading,
`transformBatchResponse` produces id `batch_{now}` and renders the body
byte-for-byte as the claim lists it: parts line, `application/http` header,
blank line, status line, `application/json` header, blank line, the JSON,
CRLF, terminal marker, with CRLF terminators throughout and one inner
JSON sub-response. -/
theorem c2_envelope (now : Nat) (json : Str) :
    transformBatchResponseSvc now json =
      { id := "batch_".data ++ natToStr now, body := claimEnvelopeBody now json } := by
  simp only [transformBatchResponseSvc, claimEnvelopeBody, List.append_assoc,
    List.cons_append, List.nil_append]

/-- C3 counterexample: rendering the single part `p3` (header `A: B`,
body `C`) under boundary `b` and parsing it back loses the header (the
parser discards the first line of the segment) and appends an extra empty
part (the `--` remnant of the terminal marker): the claim's reconstruction
of headers and parts fails. -/
theorem c3_counterexample :
    (parseBatchBody (renderClaim [p3] "b".data) "b".data).map BatchPart.headers
        = [[], []] ∧
    (parseBatchBody (renderClaim [p3] "b".data) "b".data).length = 2 ∧
    [p3].length = 1 ∧ p3.headers = [("A".data, "B".data)] := by
  refine ⟨by decide, by decide, rfl, rfl⟩

/-- C4 counterexample: on a body ending with the terminal marker `--b--`,
splitting leaves the residual segment `--`, which is neither empty after
trimming nor equal to the terminal marker, so it survives the filter and
is built into a trailing part with empty headers and empty body — a part
originating from the terminal marker. -/
theorem c4_counterexample :
    parseBatchBody c4raw "b".data =
      [{ headers := [], body := "GET x HTTP/1.1".data },
       { headers := [], body := [] }] ∧
    splitOnL ("--".data ++ "b".data) c4raw =
      [[], "\r\nContent-Type: application/http\r\n\r\nGET x HTTP/1.1\r\n".data, "--".data] ∧
    parseBatchPartSeg "--".data = { headers := [], body := [] } := by
  refine ⟨by decide, by decide, by decide⟩

/-- C5: the claim's embedded body and request path extract to exactly
`foo/Consumption/Model?x=1`: the slice between `GET` and `HTTP` is
trimmed, the request path loses `datasphere/` and `$batch`, and the
concatenation survives the `URLSearchParams`/`decodeURIComponent` round
trip with its leading slash dropped. -/
theorem c5_path_extraction :
    extractBatchPath body5 path5 = .ok "foo/Consumption/Model?x=1".data := rfl

/-- C6 (code bug): `cleanXML` never invokes `removeUnderscores`, so
`<Property Name="_internal"/>` survives cleaning intact — contradicting
the claim, the spec's pipeline step 5, and `cleanXML`'s own documentation
comment; the defined-but-unused `removeUnderscores` would have removed
exactly that element. -/
theorem c6_underscore_bug :
    cleanXML x6 = .ok x6out ∧
    containsSubL "Name=\"_internal\"".data x6out = true ∧
    containsSubL "Name=\"internal\"".data x6out = true ∧
    (parseXML x6).map removeUnderscores =
      some (some (.mk "Schema".data []
        [.mk "Property".data [("Name".data, "internal".data)] []])) := by
  refine ⟨rfl, by decide, by decide, rfl⟩

/-- C3 amended: for every boundary token and sequence of parts whose
rendered content is boundary-collision-free, whose header block has at
least one well-formed header with distinct keys, and whose body lines are
plain non-header lines, parsing the rendering returns one part per
rendered part — its header mapping missing the first header line (the
parser discards the line after the separator) and its body the body lines
joined by LF and trimmed — plus one trailing empty part arising from the
residual `--` of the terminal marker. -/
theorem c3_amended (P : List RenderPart) (b : Str) (hb : b ≠ [])
    (hw : ∀ p ∈ P, wfRenderPart ("--".data ++ b) p) :
    parseBatchBody (renderClaim P b) b
      = P.map (fun p => { headers := p.headers.drop 1,
                          body := trimL (intercalateL ['\n'] p.bodyLines) })
        ++ [{ headers := [], body := [] }] := by
  unfold parseBatchBody
  dsimp only
  rw [splitOnL_render b hb P (fun p hp => (hw p hp).2.2.2.2.2)]
  rw [List.filter_cons]
  rw [if_neg (by simp [trimL, trimLeftL, trimRightL])]
  rw [List.filter_append]
  rw [List.filter_eq_self.mpr (by
    intro seg hseg
    obtain ⟨p, hp, hpe⟩ := List.mem_map.mp hseg
    obtain ⟨hp1, hp2, hp3, hp4, hp5, hp6⟩ := hw p hp
    rw [← hpe]
    rw [Bool.and_eq_true]
    constructor
    · rw [trimL_renderPartInner p hp1 hp2 hp4 hp5]
      simp
    · rw [decide_eq_true_eq]
      rw [renderPartInner_shape p]
      intro hcontra
      rw [show ("--".data ++ b ++ "--".data) = '-' :: '-' :: (b ++ "--".data) by simp] at hcontra
      cases hcontra)]
  rw [List.filter_eq_self.mpr (by
    intro seg hseg
    rw [List.mem_singleton.mp hseg, Bool.and_eq_true]
    refine ⟨by decide, ?_⟩
    rw [decide_eq_true_eq]
    intro hcontra
    have hlen := congrArg List.length hcontra
    simp at hlen)]
  rw [List.map_append, List.map_map]
  rw [List.map_congr_left (fun p hp => by
    obtain ⟨hp1, hp2, hp3, hp4, hp5, hp6⟩ := hw p hp
    show parseBatchPartSeg (renderPartInner p) = _
    exact parseBatchPartSeg_render p hp1 hp2 hp3 hp4 hp5)]
  rw [show (["--".data].map parseBatchPartSeg)
      = [{ headers := [], body := [] }] by decide]

/-- Witness for the amended round trip at a concrete two-header part. -/
theorem c3_amended_witness :
    parseBatchBody (renderClaim [p3w] "b".data) "b".data
      = [p3w].map (fun p => { headers := p.headers.drop 1,
                              body := trimL (intercalateL ['\n'] p.bodyLines) })
        ++ [{ headers := [], body := [] }] :=
  c3_amended [p3w] "b".data (by decide) (by decide)

/-- C4 amended: every part `parseBatchBody` returns is built from a split
segment that is nonempty after trimming and differs from the full terminal
marker string; the residual `--` segment of the terminal marker passes
that filter, which is how the trailing empty part of the counterexample
arises. -/
theorem c4_amended (raw boundary : Str) (p : BatchPart)
    (hp : p ∈ parseBatchBody raw boundary) :
    ∃ seg, seg ∈ splitOnL ("--".data ++ boundary) raw ∧
      trimL seg ≠ [] ∧ seg ≠ ("--".data ++ boundary ++ "--".data) ∧
      p = parseBatchPartSeg seg := by
  unfold parseBatchBody at hp
  obtain ⟨seg, hmem, hpe⟩ := List.mem_map.mp hp
  have hfil := List.mem_filter.mp hmem
  have hcond := hfil.2
  rw [Bool.and_eq_true] at hcond
  refine ⟨seg, hfil.1, ?_, ?_, hpe.symm⟩
  · intro hnil
    rw [hnil] at hcond
    simp at hcond
  · exact of_decide_eq_true hcond.2

/-- Witness for the segment characterization at the counterexample body. -/
theorem c4_amended_witness :
    ∃ seg, seg ∈ splitOnL ("--".data ++ "b".data) c4raw ∧
      trimL seg ≠ [] ∧ seg ≠ ("--".data ++ "b".data ++ "--".data) ∧
      ({ headers := [], body := "GET x HTTP/1.1".data } : BatchPart) = parseBatchPartSeg seg :=
  c4_amended c4raw "b".data { headers := [], body := "GET x HTTP/1.1".data } (by decide)

/-- C10: the first line of each trimmed segment is destructured off and
discarded — line-level part construction never reads it, and replacing the
line after the separator by any other single trimmed line leaves the
parsed part unchanged, so it contributes neither headers nor body. -/
theorem c10_first_line_discarded :
    (∀ (l1 l2 : Str) (ls : List Str), parsePartLines (l1 :: ls) = parsePartLines (l2 :: ls)) ∧
    (∀ (l1 l2 : Str) (rest : List Str),
      noNL l1 = true → headNonWS l1 = true → lastNonWS l1 = true →
      noNL l2 = true → headNonWS l2 = true → lastNonWS l2 = true →
      (∀ l ∈ rest, noNL l = true) →
      (rest ≠ [] → lastNonWS (intercalateL "\r\n".data rest) = true) →
      parseBatchPartSeg (intercalateL "\r\n".data (l1 :: rest))
        = parseBatchPartSeg (intercalateL "\r\n".data (l2 :: rest))) := by
  constructor
  · intro l1 l2 ls
    rfl
  · intro l1 l2 rest hn1 hh1 hl1 hn2 hh2 hl2 hrest hlast
    have key : ∀ (l : Str), noNL l = true → headNonWS l = true → lastNonWS l = true →
        parseBatchPartSeg (intercalateL "\r\n".data (l :: rest)) = parsePartLines (l :: rest) := by
      intro l hn hh hl
      cases rest with
      | nil =>
        show parseBatchPartSeg l = _
        unfold parseBatchPartSeg
        rw [trimL_eq_self l hh hl, splitLinesL_single l hn]
      | cons x xs =>
        rw [show intercalateL "\r\n".data (l :: x :: xs)
            = l ++ "\r\n".data ++ intercalateL "\r\n".data (x :: xs) from rfl]
        unfold parseBatchPartSeg
        have hR := hlast (by simp)
        rw [trimL_eq_self _
          (headNonWS_append _ _ (headNonWS_append _ _ hh))
          (lastNonWS_append _ _ hR)]
        rw [show l ++ "\r\n".data ++ intercalateL "\r\n".data (x :: xs)
            = l ++ ('\r' :: '\n' :: intercalateL "\r\n".data (x :: xs)) by
          simp [List.append_assoc]]
        rw [splitLinesL_cons l _ hn]
        rw [splitLinesL_interc (x :: xs) hrest (by simp)]
    rw [key l1 hn1 hh1 hl1, key l2 hn2 hh2 hl2]
    rfl

/-- Witness for the first-line discard at a concrete header-shaped line. -/
theorem c10_witness :
    parseBatchPartSeg (intercalateL "\r\n".data ("Content-Type: application/http".data :: c10rest))
      = parseBatchPartSeg (intercalateL "\r\n".data ("IGNORED-LINE".data :: c10rest)) :=
  c10_first_line_discarded.2 "Content-Type: application/http".data "IGNORED-LINE".data c10rest
    (by decide) (by decide) (by decide) (by decide) (by decide) (by decide)
    (by decide) (fun _ => by decide)

/-- C9 (code bug): every `ValidationError` carries the HTTP-status mapping
400 from its class, but the error middleware answers every error with
status 500, so the caller never sees the 400 the claim promises. -/
theorem c9_status_bug :
    (∀ m c, (mkValidationError m c).statusCode = 400) ∧
    (∀ e, errorHandlerStatus e = 500) ∧
    (∀ m c, errorHandlerStatus (mkValidationError m c) ≠ (mkValidationError m c).statusCode) := by
  refine ⟨fun _ _ => rfl, fun _ => rfl, fun m c => by simp [errorHandlerStatus, mkValidationError]⟩

/-- C8: among the found annotation groups, one whose nonempty `Target`
contains `/_0` and has no `Common.Label` child always contributes its
target to `targetsMissingLabel`; one with a `Common.Label` child never
does, provided no other group reuses the same target value without a
label. -/
theorem c8_targets_without_label (root g : XElem) (tg : Str)
    (hg : g ∈ findAllAnnots root)
    (ht : getAttr g "Target".data = some tg)
    (hne : tg ≠ [])
    (hsub : containsSubL "/_0".data tg = true) :
    (hasCommonLabel g = false → tg ∈ targetsWithoutLabelTree root) ∧
    (hasCommonLabel g = true →
      (∀ g2 ∈ findAllAnnots root, getAttr g2 "Target".data = some tg → hasCommonLabel g2 = true) →
      tg ∉ targetsWithoutLabelTree root) := by
  constructor
  · intro hlab
    unfold targetsWithoutLabelTree
    exact List.mem_filterMap.mpr ⟨g, hg, by simp [ht, hne, hsub, hlab]⟩
  · intro hlab huniq hcontra
    unfold targetsWithoutLabelTree at hcontra
    obtain ⟨g2, hg2, hfg2⟩ := List.mem_filterMap.mp hcontra
    cases hga : getAttr g2 "Target".data with
    | none => rw [hga] at hfg2; cases hfg2
    | some t =>
      rw [hga] at hfg2
      simp only [] at hfg2
      split_ifs at hfg2 with h1 h2 h3
      exact h3 (huniq g2 hg2 (by rw [hga]; exact hfg2))

/-- Witness: in the two-group document, the unlabelled `/_0` target is
reported and the labelled one is not. -/
theorem c8_witness :
    "B/_0Y".data ∈ targetsWithoutLabelTree c8root ∧
    "A/_0X".data ∉ targetsWithoutLabelTree c8root := by
  refine ⟨?_, ?_⟩
  · exact (c8_targets_without_label c8root c8gNoLab "B/_0Y".data
      (by rw [show findAllAnnots c8root = [c8gLab, c8gNoLab] from rfl]
          exact List.mem_cons_of_mem c8gLab (List.mem_cons_self c8gNoLab []))
      rfl (by decide) (by decide)).1 rfl
  · exact (c8_targets_without_label c8root c8gLab "A/_0X".data
      (by rw [show findAllAnnots c8root = [c8gLab, c8gNoLab] from rfl]
          exact List.mem_cons_self c8gLab [c8gNoLab])
      rfl (by decide) (by decide)).2 rfl
      (by
        rw [show findAllAnnots c8root = [c8gLab, c8gNoLab] from rfl]
        intro g2 hg2 htg2
        rcases List.mem_cons.mp hg2 with h | h
        · rw [h]; rfl
        · rw [List.mem_singleton.mp h] at htg2
          exact absurd htg2 (by decide))

end PocAlp
